import Mathlib

/-!
# SimTK small-matrix kernel: mixed Vec / Row / Mat operations

A shallow embedding of `SmallMatrixMixed.h` (namespace `SimTK`): dot and outer
product, the conforming products of rows, vectors, matrices and symmetric
matrices, the cross product with its matrices `crossMat` and `crossMatSq`,
determinants, the closed-form inverses of small square matrices and the
solver-backed inverse of larger ones, followed by the properties proved about
them.

Elements live in one type `E` (the promoted result type of the element
algebra); `CNT<E>::transpose`, the Hermitian transpose of an element, is the
`star` of `E`.  Dimensions are natural numbers; the source only instantiates
dimensions `>= 1`.
-/

namespace SimTK

/-! ## Shape containers -/

/-- Modelled from the spec: the column vector container `Vec<N,E>` (declared
outside this file): `N` elements with indexed access `v[i]`. -/
structure Vec (N : Nat) (E : Type) where
  /-- Indexed element access `v[i]`. -/
  elt : Fin N → E

/-- Modelled from the spec: the row (covector) container `Row<N,E>` (declared
outside this file): `N` elements with indexed access `r[i]`; it differs from
`Vec` in orientation only. -/
structure Row (N : Nat) (E : Type) where
  /-- Indexed element access `r[i]`. -/
  elt : Fin N → E

/-- Modelled from the spec: the general matrix container `Mat<M,N,E>` (declared
outside this file), `M` rows by `N` columns with element access `m(i,j)`. -/
abbrev Mat (M N : Nat) (E : Type) := Matrix (Fin M) (Fin N) E

/-- Modelled from the spec: `Row::positionalTranspose()`, the same elements in
the same order read as a column, with no conjugation. -/
def Row.positionalTranspose {N : Nat} {E : Type} (r : Row N E) : Vec N E := ⟨r.elt⟩

/-- Modelled from the spec: `Vec::positionalTranspose()`, the same elements in
the same order read as a row, with no conjugation. -/
def Vec.positionalTranspose {N : Nat} {E : Type} (v : Vec N E) : Row N E := ⟨v.elt⟩

/-- Modelled from the spec: `operator~` on a `Vec`, the Hermitian transpose: a
row whose elements are the Hermitian transposes of the elements of `v`. -/
def Vec.transpose {N : Nat} {E : Type} [Star E] (v : Vec N E) : Row N E :=
  ⟨fun i => star (v.elt i)⟩

/-- Modelled from the spec: `operator~` on a `Row`, the Hermitian transpose: a
column whose elements are the Hermitian transposes of the elements of `r`. -/
def Row.transpose {N : Nat} {E : Type} [Star E] (r : Row N E) : Vec N E :=
  ⟨fun i => star (r.elt i)⟩

/-- Modelled from the spec: the reference `reinterpret_cast<const Vec<M-1,E,S>&>(v)`
reads the first `M-1` elements of `v` in place. -/
def Vec.front {N : Nat} {E : Type} (v : Vec (N + 1) E) : Vec N E :=
  ⟨fun i => v.elt (Fin.castSucc i)⟩

/-- Modelled from the spec: the reference `reinterpret_cast<const Row<N-1,E,S>&>(r)`
reads the first `N-1` elements of `r` in place. -/
def Row.front {N : Nat} {E : Type} (r : Row (N + 1) E) : Row N E :=
  ⟨fun i => r.elt (Fin.castSucc i)⟩

/-- Modelled from the spec: scalar times row, `e * r`, multiplies every element
of the row by `e` on the left. -/
def Row.scalarMul {N : Nat} {E : Type} [Mul E] (e : E) (r : Row N E) : Row N E :=
  ⟨fun j => e * r.elt j⟩

/-- Modelled from the spec: a matrix given by its rows, `m[i]` being row `i`. -/
def Mat.ofRows {M N : Nat} {E : Type} (rows : Fin M → Row N E) : Mat M N E :=
  Matrix.of fun i j => (rows i).elt j

/-- Modelled from the spec: `m.getSubMat<M-1,M>(1,0)`, the block of `m` that
starts at row 1 and column 0: every row but the first. -/
def Mat.getSubMat_1_0 {M : Nat} {E : Type} (m : Mat (M + 1) (M + 1) E) : Mat M (M + 1) E :=
  Matrix.of fun i j => m i.succ j

/-- Modelled from the spec: `m.dropCol(j)`, the matrix `m` with column `j`
removed, the other columns keeping their order. -/
def Mat.dropCol {M N : Nat} {E : Type} (m : Mat M (N + 1) E) (j : Fin (N + 1)) : Mat M N E :=
  Matrix.of fun i k => m i (j.succAbove k)

/-! ## Dot product, row times vector, outer product -/

/-- The function `dot(const Vec<M,E1,S1>&, const Vec<M,E2,S2>&)`: the one-element
base case, and the recursion on the first `M-1` elements plus the
contribution of the last.  No vector has length 0 in the source; that case
holds the empty sum. -/
def dot {E : Type} [Add E] [Mul E] [Zero E] [Star E] : (M : Nat) → Vec M E → Vec M E → E
  | 0, _, _ => 0
  | 1, r, v => star (r.elt 0) * v.elt 0
  | (n + 2), r, v =>
    dot (n + 1) r.front v.front + star (r.elt (Fin.last (n + 1))) * v.elt (Fin.last (n + 1))

/-- The infix `operator*(const Row<N,E1,S1>&, const Vec<N,E2,S2>&)`, row times
conforming vector.  No row has length 0 in the source; that case holds the
empty sum. -/
def rowMulVec {E : Type} [Add E] [Mul E] [Zero E] : (N : Nat) → Row N E → Vec N E → E
  | 0, _, _ => 0
  | 1, r, v => r.elt 0 * v.elt 0
  | (n + 2), r, v =>
    rowMulVec (n + 1) r.front v.front + r.elt (Fin.last (n + 1)) * v.elt (Fin.last (n + 1))

/-- The overload `dot(const Row<N,E1,S1>&, const Vec<N,E2,S2>&)`. -/
def dot_Row_Vec {E : Type} [Add E] [Mul E] [Zero E] [Star E] (N : Nat)
    (r : Row N E) (v : Vec N E) : E :=
  dot N r.positionalTranspose v

/-- The overload `dot(const Vec<M,E1,S1>&, const Row<M,E2,S2>&)`. -/
def dot_Vec_Row {E : Type} [Add E] [Mul E] [Zero E] [Star E] (M : Nat)
    (v : Vec M E) (r : Row M E) : E :=
  dot M v r.positionalTranspose

/-- The overload `dot(const Row<N,E1,S1>&, const Row<N,E2,S2>&)`. -/
def dot_Row_Row {E : Type} [Add E] [Mul E] [Zero E] [Star E] (N : Nat)
    (r s : Row N E) : E :=
  dot N r.positionalTranspose s.positionalTranspose

/-- The function `outer(const Vec<M,E1,S1>&, const Vec<M,E2,S2>&)`: row `i` of
the result is assigned `v[i] * ~w`. -/
def outer {E : Type} [Mul E] [Star E] (M : Nat) (v w : Vec M E) : Mat M M E :=
  Mat.ofRows fun i => Row.scalarMul (v.elt i) w.transpose

/-- The overload `outer(const Vec<M,E1,S1>&, const Row<M,E2,S2>&)`. -/
def outer_Vec_Row {E : Type} [Mul E] [Star E] (M : Nat) (v : Vec M E) (r : Row M E) :
    Mat M M E :=
  outer M v r.positionalTranspose

/-- The overload `outer(const Row<M,E1,S1>&, const Vec<M,E2,S2>&)`. -/
def outer_Row_Vec {E : Type} [Mul E] [Star E] (M : Nat) (r : Row M E) (v : Vec M E) :
    Mat M M E :=
  outer M r.positionalTranspose v

/-- The overload `outer(const Row<M,E1,S1>&, const Row<M,E2,S2>&)`. -/
def outer_Row_Row {E : Type} [Mul E] [Star E] (M : Nat) (r s : Row M E) : Mat M M E :=
  outer M r.positionalTranspose s.positionalTranspose

/-! ## Determinant -/

/-- The body of the general `det(const Mat<M,M,E,CS,RS>&)` at size `n+1`, with
`detSub` the determinant used for the `n x n` submatrices: the loop over the
columns of the first row, carrying the state `(sign, result)`. -/
def detExpand {E : Type} [Ring E] (n : Nat) (detSub : Mat n n E → E)
    (m : Mat (n + 1) (n + 1) E) : E :=
  let m2 : Mat n (n + 1) E := Mat.getSubMat_1_0 m
  (Fin.foldl (n + 1)
    (fun (st : E × E) (j : Fin (n + 1)) =>
      (-st.1, st.2 + st.1 * m 0 j * detSub (Mat.dropCol m2 j)))
    (1, 0)).2

/-- The overload set `det`: sizes 1, 2 and 3 are the special cases, every
larger size is the recursive template.  No matrix has dimension 0 in the
source; that case holds the initial `result(0)` of the general template. -/
def det {E : Type} [Ring E] : (M : Nat) → Mat M M E → E
  | 0, _ => 0
  | 1, m => m 0 0
  | 2, m => m 0 0 * m 1 1 - m 0 1 * m 1 0
  | 3, m => m 0 0 * (m 1 1 * m 2 2 - m 1 2 * m 2 1)
            - m 0 1 * (m 1 0 * m 2 2 - m 1 2 * m 2 0)
            + m 0 2 * (m 1 0 * m 2 1 - m 1 1 * m 2 0)
  | (n + 4), m => detExpand (n + 3) (det (n + 3)) m

/-! ## Inverse -/

/-- Specialized 1x1 `inverse`: one divide. -/
def inverse1 {E : Type} [DivisionRing E] (m : Mat 1 1 E) : Mat 1 1 E :=
  !![1 / m 0 0]

/-- Specialized 2x2 `inverse`; the element-list constructor of `Mat` takes its
arguments in row order. -/
def inverse2 {E : Type} [DivisionRing E] (m : Mat 2 2 E) : Mat 2 2 E :=
  let d := det 2 m
  let ood := 1 / d
  !![ood * m 1 1, (-ood) * m 0 1;
     (-ood) * m 1 0, ood * m 0 0]

/-- Specialized 3x3 `inverse`, returning the intermediate `d` it divides by
together with the matrix it returns. -/
def inverse3_trace {E : Type} [DivisionRing E] (m : Mat 3 3 E) : E × Mat 3 3 E :=
  let d00 := m 1 1 * m 2 2 - m 1 2 * m 2 1
  let d01 := m 1 0 * m 2 2 - m 1 2 * m 2 0
  let d02 := m 1 0 * m 2 1 - m 1 1 * m 2 0
  let d := m 0 0 * d00 - m 0 1 * d01 + m 0 2 * d02
  let ood := 1 / d
  let d10 := m 0 1 * m 2 2 - m 0 2 * m 2 1
  let d11 := m 0 0 * m 2 2 - m 0 2 * m 2 0
  let d12 := m 0 0 * m 2 1 - m 0 1 * m 2 0
  let d20 := m 0 1 * m 1 2 - m 0 2 * m 1 1
  let d21 := m 0 0 * m 1 2 - m 0 2 * m 1 0
  let d22 := m 0 0 * m 1 1 - m 0 1 * m 1 0
  (d, !![ood * d00, (-ood) * d10, ood * d20;
         (-ood) * d01, ood * d11, (-ood) * d21;
         ood * d02, (-ood) * d12, ood * d22])

/-- Specialized 3x3 `inverse`: the matrix returned. -/
def inverse3 {E : Type} [DivisionRing E] (m : Mat 3 3 E) : Mat 3 3 E :=
  (inverse3_trace m).2

/-- The two failure kinds an inversion can raise.  `BadArgument` is the failure
of `SimTK_ASSERT1(info>=0, ...)` and `SingularMatrix` the failure of
`SimTK_ERRCHK1_ALWAYS(info==0, ...)`. -/
inductive InverseFailure where
  | BadArgument : InverseFailure
  | SingularMatrix : InverseFailure
  deriving DecidableEq, Repr

/-- Modelled from the spec: the external dense solver, declared outside this
file.  `getrf M a` is Factorize: it returns the factorized buffer, the pivot
indices and the status `info`.  `getri M a ipiv` is Invert-from-factors: it
returns the overwritten buffer and the status `info`. -/
structure Lapack (E : Type) where
  /-- Factorize: LU decomposition in place. -/
  getrf : (M : Nat) → Mat M M E → (Mat M M E × (Fin M → Int)) × Int
  /-- Invert-from-factors. -/
  getri : (M : Nat) → Mat M M E → (Fin M → Int) → Mat M M E × Int

/-- The overload set `lapackInverse`: the 1x1 specialization is one divide,
every other size calls the solver.  The macro `SimTK_ASSERT1` is declared
outside this file; `keepAssert` tells whether the build keeps its check, while
`SimTK_ERRCHK1_ALWAYS` is checked in every build. -/
def lapackInverse {E : Type} [DivisionRing E] (L : Lapack E) (keepAssert : Bool) :
    (M : Nat) → Mat M M E → Except InverseFailure (Mat M M E)
  | 1, m => Except.ok !![1 / m 0 0]
  | M, m =>
    let inv : Mat M M E := m
    let f := L.getrf M inv
    if keepAssert && decide (f.2 < 0) then Except.error InverseFailure.BadArgument
    else if f.2 ≠ 0 then Except.error InverseFailure.SingularMatrix
    else
      let g := L.getri M f.1.1 f.1.2
      if keepAssert && decide (g.2 < 0) then Except.error InverseFailure.BadArgument
      else if g.2 ≠ 0 then Except.error InverseFailure.SingularMatrix
      else Except.ok g.1

/-- The overload set `inverse`, as `Mat::invert()` calls it: sizes 1, 2 and 3
go to the closed forms, which contain no check and raise nothing; every other
size goes to `lapackInverse`. -/
def inverse {E : Type} [DivisionRing E] (L : Lapack E) (keepAssert : Bool) :
    (M : Nat) → Mat M M E → Except InverseFailure (Mat M M E)
  | 1, m => Except.ok (inverse1 m)
  | 2, m => Except.ok (inverse2 m)
  | 3, m => Except.ok (inverse3 m)
  | M, m => lapackInverse L keepAssert M m

/-- A solver that reports every matrix singular; it stands for the solver in
evaluations that never reach it. -/
def Lapack.reportSingular (E : Type) : Lapack E where
  getrf := fun _ a => ((a, fun _ => 0), 1)
  getri := fun _ a _ => (a, 1)

/-! ## Conforming products with matrices -/

/-- Modelled from the spec: `m[i]`, row `i` of a matrix, as a `Row`. -/
def Mat.rowAt {M N : Nat} {E : Type} (m : Mat M N E) (i : Fin M) : Row N E :=
  ⟨fun j => m i j⟩

/-- Modelled from the spec: `m(j)`, column `j` of a matrix, as a `Vec`. -/
def Mat.colAt {M N : Nat} {E : Type} (m : Mat M N E) (j : Fin N) : Vec M E :=
  ⟨fun i => m i j⟩

/-- The infix `operator*(const Mat<M,N,ME,CS,RS>&, const Vec<N,E,S>&)`: element
`i` of the result is assigned `m[i] * v`. -/
def matMulVec {E : Type} [Add E] [Mul E] [Zero E] (M N : Nat) (m : Mat M N E)
    (v : Vec N E) : Vec M E :=
  ⟨fun i => rowMulVec N (Mat.rowAt m i) v⟩

/-- The infix `operator*(const Row<M,E,S>&, const Mat<M,N,ME,CS,RS>&)`: for
every `i < N`, element `i` of the result is assigned `r * m(i)`. -/
def rowMulMat {E : Type} [Add E] [Mul E] [Zero E] (M N : Nat) (r : Row M E)
    (m : Mat M N E) : Row N E :=
  ⟨fun i => rowMulVec M r (Mat.colAt m i)⟩

/-- Modelled from the spec: the symmetric matrix container `SymMat<N,E>`
(declared outside this file): the diagonal and the lower triangle are stored,
`lower i j` being read only where `j < i`; the upper triangle is derived. -/
structure SymMat (N : Nat) (E : Type) where
  /-- The stored diagonal. -/
  diag : Fin N → E
  /-- The stored lower triangle, element `(i,j)` with `j < i`. -/
  lower : Fin N → Fin N → E

/-- Modelled from the spec: `getDiag()`, the diagonal as a vector. -/
def SymMat.getDiag {N : Nat} {E : Type} (m : SymMat N E) : Vec N E := ⟨m.diag⟩

/-- Modelled from the spec: `getEltLower(i,j)`, the stored element `(i,j)`,
`j < i`. -/
def SymMat.getEltLower {N : Nat} {E : Type} (m : SymMat N E) (i j : Fin N) : E :=
  m.lower i j

/-- Modelled from the spec: `getEltUpper(i,j)`, `i < j`: the stored element
`(j,i)` read through the Hermitian transpose of the element, so that for real
elements `upper(i,j) = lower(j,i)`. -/
def SymMat.getEltUpper {N : Nat} {E : Type} [Star E] (m : SymMat N E) (i j : Fin N) : E :=
  star (m.lower j i)

/-- Modelled from the spec: the six-element constructor
`SymMat<3,E>(a0, a1,a2, a3,a4,a5)`, the lower triangle listed row by row:
diagonal `(a0, a2, a5)`, lower elements `(1,0) = a1`, `(2,0) = a3`,
`(2,1) = a4`. -/
def SymMat.mk3 {E : Type} (a0 a1 a2 a3 a4 a5 : E) : SymMat 3 E where
  diag := ![a0, a2, a5]
  lower := fun i j => if i = 1 then a1 else if j = 0 then a3 else a4

/-- The symmetric matrix read as a full matrix: entry `(i,j)` is the diagonal,
the lower or the upper element according to `i = j`, `j < i`, `i < j`. -/
def SymMat.toMat {N : Nat} {E : Type} [Star E] (m : SymMat N E) : Mat N N E :=
  Matrix.of fun i j =>
    if j = i then m.getDiag.elt i
    else if j < i then m.getEltLower i j
    else m.getEltUpper i j

/-- The general `operator*(const SymMat<N,ME,RS>&, const Vec<N,E,S>&)`: for
each `i` the diagonal term, then the loop over `j < i` on the lower elements,
then the loop over `i < j < N` on the upper elements. -/
def symMulVec {E : Type} [Add E] [Mul E] [Star E] (N : Nat) (m : SymMat N E)
    (v : Vec N E) : Vec N E :=
  ⟨fun i =>
    let r0 := m.getDiag.elt i * v.elt i
    let r1 := Fin.foldl i.val
      (fun (acc : E) (j : Fin i.val) =>
        acc + m.getEltLower i (Fin.castLE (Nat.le_of_lt i.isLt) j)
          * v.elt (Fin.castLE (Nat.le_of_lt i.isLt) j))
      r0
    Fin.foldl (N - (i.val + 1))
      (fun (acc : E) (k : Fin (N - (i.val + 1))) =>
        acc + m.getEltUpper i ⟨i.val + 1 + k.val, by omega⟩
          * v.elt ⟨i.val + 1 + k.val, by omega⟩)
      r1⟩

/-- The unrolled `operator*(const SymMat<1,ME,RS>&, const Vec<1,E,S>&)`. -/
def symMulVec1 {E : Type} [Mul E] (m : SymMat 1 E) (v : Vec 1 E) : Vec 1 E :=
  ⟨![m.getDiag.elt 0 * v.elt 0]⟩

/-- The unrolled `operator*(const SymMat<2,ME,RS>&, const Vec<2,E,S>&)`. -/
def symMulVec2 {E : Type} [Add E] [Mul E] [Star E] (m : SymMat 2 E) (v : Vec 2 E) :
    Vec 2 E :=
  ⟨![m.getDiag.elt 0 * v.elt 0 + m.getEltUpper 0 1 * v.elt 1,
     m.getEltLower 1 0 * v.elt 0 + m.getDiag.elt 1 * v.elt 1]⟩

/-- The unrolled `operator*(const SymMat<3,ME,RS>&, const Vec<3,E,S>&)`. -/
def symMulVec3 {E : Type} [Add E] [Mul E] [Star E] (m : SymMat 3 E) (v : Vec 3 E) :
    Vec 3 E :=
  ⟨![m.getDiag.elt 0 * v.elt 0 + m.getEltUpper 0 1 * v.elt 1 + m.getEltUpper 0 2 * v.elt 2,
     m.getEltLower 1 0 * v.elt 0 + m.getDiag.elt 1 * v.elt 1 + m.getEltUpper 1 2 * v.elt 2,
     m.getEltLower 2 0 * v.elt 0 + m.getEltLower 2 1 * v.elt 1 + m.getDiag.elt 2 * v.elt 2]⟩

/-! ## Cross product -/

/-- Modelled from the spec: unary minus on a `Vec`, element by element. -/
def Vec.neg {N : Nat} {E : Type} [Neg E] (v : Vec N E) : Vec N E :=
  ⟨fun i => -v.elt i⟩

/-- The function `cross(const Vec<3,E1,S1>&, const Vec<3,E2,S2>&)`. -/
def cross {E : Type} [Mul E] [Sub E] (a b : Vec 3 E) : Vec 3 E :=
  ⟨![a.elt 1 * b.elt 2 - a.elt 2 * b.elt 1,
     a.elt 2 * b.elt 0 - a.elt 0 * b.elt 2,
     a.elt 0 * b.elt 1 - a.elt 1 * b.elt 0]⟩

/-- The function `cross(const Vec<3,E1,S1>&, const Row<3,E2,S2>&)`. -/
def cross_Vec_Row {E : Type} [Mul E] [Sub E] (a : Vec 3 E) (b : Row 3 E) : Row 3 E :=
  ⟨![a.elt 1 * b.elt 2 - a.elt 2 * b.elt 1,
     a.elt 2 * b.elt 0 - a.elt 0 * b.elt 2,
     a.elt 0 * b.elt 1 - a.elt 1 * b.elt 0]⟩

/-- The function `cross(const Row<3,E1,S1>&, const Vec<3,E2,S2>&)`. -/
def cross_Row_Vec {E : Type} [Mul E] [Sub E] (a : Row 3 E) (b : Vec 3 E) : Row 3 E :=
  ⟨![a.elt 1 * b.elt 2 - a.elt 2 * b.elt 1,
     a.elt 2 * b.elt 0 - a.elt 0 * b.elt 2,
     a.elt 0 * b.elt 1 - a.elt 1 * b.elt 0]⟩

/-- The function `cross(const Row<3,E1,S1>&, const Row<3,E2,S2>&)`. -/
def cross_Row_Row {E : Type} [Mul E] [Sub E] (a : Row 3 E) (b : Row 3 E) : Row 3 E :=
  ⟨![a.elt 1 * b.elt 2 - a.elt 2 * b.elt 1,
     a.elt 2 * b.elt 0 - a.elt 0 * b.elt 2,
     a.elt 0 * b.elt 1 - a.elt 1 * b.elt 0]⟩

/-- The infix `operator%(const Vec<3,E1,S1>&, const Vec<3,E2,S2>&)`. -/
def crossOp {E : Type} [Mul E] [Sub E] (a b : Vec 3 E) : Vec 3 E := cross a b

/-- The infix `operator%(const Vec<3,E1,S1>&, const Row<3,E2,S2>&)`. -/
def crossOp_Vec_Row {E : Type} [Mul E] [Sub E] (a : Vec 3 E) (b : Row 3 E) : Row 3 E :=
  cross_Vec_Row a b

/-- The infix `operator%(const Row<3,E1,S1>&, const Vec<3,E2,S2>&)`. -/
def crossOp_Row_Vec {E : Type} [Mul E] [Sub E] (a : Row 3 E) (b : Vec 3 E) : Row 3 E :=
  cross_Row_Vec a b

/-- The infix `operator%(const Row<3,E1,S1>&, const Row<3,E2,S2>&)`. -/
def crossOp_Row_Row {E : Type} [Mul E] [Sub E] (a : Row 3 E) (b : Row 3 E) : Row 3 E :=
  cross_Row_Row a b

/-- The function `cross(const Vec<2,E1,S1>&, const Vec<2,E2,S2>&)`, a scalar. -/
def cross2 {E : Type} [Mul E] [Sub E] (a b : Vec 2 E) : E :=
  a.elt 0 * b.elt 1 - a.elt 1 * b.elt 0

/-- The function `cross(const Row<2,E1,S1>&, const Vec<2,E2,S2>&)`. -/
def cross2_Row_Vec {E : Type} [Mul E] [Sub E] (a : Row 2 E) (b : Vec 2 E) : E :=
  a.elt 0 * b.elt 1 - a.elt 1 * b.elt 0

/-- The function `cross(const Vec<2,E1,S1>&, const Row<2,E2,S2>&)`. -/
def cross2_Vec_Row {E : Type} [Mul E] [Sub E] (a : Vec 2 E) (b : Row 2 E) : E :=
  a.elt 0 * b.elt 1 - a.elt 1 * b.elt 0

/-- The function `cross(const Row<2,E1,S1>&, const Row<2,E2,S2>&)`. -/
def cross2_Row_Row {E : Type} [Mul E] [Sub E] (a : Row 2 E) (b : Row 2 E) : E :=
  a.elt 0 * b.elt 1 - a.elt 1 * b.elt 0

/-- The infix `operator%(const Vec<2,E1,S1>&, const Vec<2,E2,S2>&)`. -/
def crossOp2 {E : Type} [Mul E] [Sub E] (a b : Vec 2 E) : E := cross2 a b

/-- The function `crossMat(const Vec<3,E,S>&)`, built from its three rows. -/
def crossMat {E : Type} [Zero E] [Neg E] (v : Vec 3 E) : Mat 3 3 E :=
  Mat.ofRows ![Row.mk ![0, -v.elt 2, v.elt 1],
               Row.mk ![v.elt 2, 0, -v.elt 0],
               Row.mk ![-v.elt 1, v.elt 0, 0]]

/-- The function `crossMat(const Row<3,E,S>&)`. -/
def crossMat_Row {E : Type} [Zero E] [Neg E] (r : Row 3 E) : Mat 3 3 E :=
  crossMat r.positionalTranspose

/-- The function `crossMat(const Vec<2,E,S>&)`, a two-element row. -/
def crossMat2 {E : Type} [Neg E] (v : Vec 2 E) : Row 2 E :=
  ⟨![-v.elt 1, v.elt 0]⟩

/-- The function `crossMat(const Row<2,E,S>&)`. -/
def crossMat2_Row {E : Type} [Neg E] (r : Row 2 E) : Row 2 E :=
  crossMat2 r.positionalTranspose

/-- Modelled from the spec: `square(x)`, the product `x * x`. -/
def square {E : Type} [Mul E] (x : E) : E := x * x

/-- The function `crossMatSq(const Vec<3,E,S>&)`. -/
def crossMatSq {E : Type} [Add E] [Mul E] [Neg E] (v : Vec 3 E) : SymMat 3 E :=
  let xx := square (v.elt 0)
  let yy := square (v.elt 1)
  let zz := square (v.elt 2)
  let nx := -v.elt 0
  let ny := -v.elt 1
  SymMat.mk3 (yy + zz)
             (nx * v.elt 1) (xx + zz)
             (nx * v.elt 2) (ny * v.elt 2) (xx + yy)

/-- The function `crossMatSq(const Row<3,E,S>&)`. -/
def crossMatSq_Row {E : Type} [Add E] [Mul E] [Neg E] (r : Row 3 E) : SymMat 3 E :=
  crossMatSq r.positionalTranspose

/-! ## Negated views -/

/-- Modelled from the spec: the negated view `negator<E>` (declared outside
this file), a stored value `s` that stands for the logical value `-s`. -/
structure negator (E : Type) where
  /-- The value held in memory. -/
  stored : E

/-- Modelled from the spec: the conversion `E(x)` of a negated view to a plain
value; it performs the negation and yields the logical value. -/
def negator.toPlain {E : Type} [Neg E] (x : negator E) : E := -x.stored

/-- Modelled from the spec: unary minus on a negated view, a recast that
performs no negation: the negative of the logical value is the stored
value. -/
def negator.neg {E : Type} (x : negator E) : E := x.stored

/-- Modelled from the spec: `square(x)` on a negated view, the square of the
recast `-x`, which performs no negation. -/
def square_negator {E : Type} [Mul E] (x : negator E) : E := square x.neg

/-- The logical values of a vector of negated views, as plain elements. -/
def Vec.logical {N : Nat} {E : Type} [Neg E] (v : Vec N (negator E)) : Vec N E :=
  ⟨fun i => (v.elt i).toPlain⟩

/-- The function `crossMat(const Vec<3,negator<E>,S>&)`. -/
def crossMat_negator {E : Type} [Zero E] [Neg E] (v : Vec 3 (negator E)) : Mat 3 3 E :=
  Mat.ofRows ![Row.mk ![0, (v.elt 2).neg, (v.elt 1).toPlain],
               Row.mk ![(v.elt 2).toPlain, 0, (v.elt 0).neg],
               Row.mk ![(v.elt 1).neg, (v.elt 0).toPlain, 0]]

/-- The function `crossMat(const Row<3,negator<E>,S>&)`. -/
def crossMat_negator_Row {E : Type} [Zero E] [Neg E] (r : Row 3 (negator E)) : Mat 3 3 E :=
  crossMat_negator r.positionalTranspose

/-- The function `crossMat(const Vec<2,negator<E>,S>&)`. -/
def crossMat2_negator {E : Type} [Neg E] (v : Vec 2 (negator E)) : Row 2 E :=
  ⟨![(v.elt 1).neg, (v.elt 0).toPlain]⟩

/-- The function `crossMat(const Row<2,negator<E>,S>&)`. -/
def crossMat2_negator_Row {E : Type} [Neg E] (r : Row 2 (negator E)) : Row 2 E :=
  crossMat2_negator r.positionalTranspose

/-- The function `crossMatSq(const Vec<3,negator<E>,S>&)`. -/
def crossMatSq_negator {E : Type} [Add E] [Mul E] [Neg E] (v : Vec 3 (negator E)) :
    SymMat 3 E :=
  let xx := square_negator (v.elt 0)
  let yy := square_negator (v.elt 1)
  let zz := square_negator (v.elt 2)
  let y := (v.elt 1).toPlain
  let z := (v.elt 2).toPlain
  SymMat.mk3 (yy + zz)
             ((v.elt 0).neg * y) (xx + zz)
             ((v.elt 0).neg * z) ((v.elt 1).neg * z) (xx + yy)

/-- The function `crossMatSq(const Row<3,negator<E>,S>&)`. -/
def crossMatSq_negator_Row {E : Type} [Add E] [Mul E] [Neg E] (r : Row 3 (negator E)) :
    SymMat 3 E :=
  crossMatSq_negator r.positionalTranspose

/-! ## Row times symmetric matrix -/

/-- The general `operator*(const Row<M,E,S>&, const SymMat<M,ME,RS>&)`: for
each `j` the diagonal term, then the loop over `i < j` on the upper elements,
then the loop over `j < i < M` on the lower elements. -/
def rowMulSym {E : Type} [Add E] [Mul E] [Star E] (M : Nat) (r : Row M E)
    (m : SymMat M E) : Row M E :=
  ⟨fun j =>
    let r0 := r.elt j * m.getDiag.elt j
    let r1 := Fin.foldl j.val
      (fun (acc : E) (i : Fin j.val) =>
        acc + r.elt (Fin.castLE (Nat.le_of_lt j.isLt) i)
          * m.getEltUpper (Fin.castLE (Nat.le_of_lt j.isLt) i) j)
      r0
    Fin.foldl (M - (j.val + 1))
      (fun (acc : E) (k : Fin (M - (j.val + 1))) =>
        acc + r.elt ⟨j.val + 1 + k.val, by omega⟩
          * m.getEltLower ⟨j.val + 1 + k.val, by omega⟩ j)
      r1⟩

/-- The unrolled `operator*(const Row<1,E,S>&, const SymMat<1,ME,RS>&)`. -/
def rowMulSym1 {E : Type} [Mul E] (r : Row 1 E) (m : SymMat 1 E) : Row 1 E :=
  ⟨![r.elt 0 * m.getDiag.elt 0]⟩

/-- The unrolled `operator*(const Row<2,E,S>&, const SymMat<2,ME,RS>&)`. -/
def rowMulSym2 {E : Type} [Add E] [Mul E] [Star E] (r : Row 2 E) (m : SymMat 2 E) :
    Row 2 E :=
  ⟨![r.elt 0 * m.getDiag.elt 0 + r.elt 1 * m.getEltLower 1 0,
     r.elt 0 * m.getEltUpper 0 1 + r.elt 1 * m.getDiag.elt 1]⟩

/-- The unrolled `operator*(const Row<3,E,S>&, const SymMat<3,ME,RS>&)`. -/
def rowMulSym3 {E : Type} [Add E] [Mul E] [Star E] (r : Row 3 E) (m : SymMat 3 E) :
    Row 3 E :=
  ⟨![r.elt 0 * m.getDiag.elt 0 + r.elt 1 * m.getEltLower 1 0 + r.elt 2 * m.getEltLower 2 0,
     r.elt 0 * m.getEltUpper 0 1 + r.elt 1 * m.getDiag.elt 1 + r.elt 2 * m.getEltLower 2 1,
     r.elt 0 * m.getEltUpper 0 2 + r.elt 1 * m.getEltUpper 1 2 + r.elt 2 * m.getDiag.elt 2]⟩

/-! ## Calls on the solver -/

/-- The two entry points of the external solver, as calls made on it. -/
inductive SolverCall where
  | getrf : SolverCall
  | getri : SolverCall
  deriving DecidableEq, Repr

/-- The overload set `lapackInverse` once more, returning with its outcome the
list of the calls it makes on the solver, in order. -/
def lapackInverse_calls {E : Type} [DivisionRing E] (L : Lapack E) (keepAssert : Bool) :
    (M : Nat) → Mat M M E → List SolverCall × Except InverseFailure (Mat M M E)
  | 1, m => ([], Except.ok !![1 / m 0 0])
  | M, m =>
    let inv : Mat M M E := m
    let f := L.getrf M inv
    if keepAssert && decide (f.2 < 0) then
      ([SolverCall.getrf], Except.error InverseFailure.BadArgument)
    else if f.2 ≠ 0 then ([SolverCall.getrf], Except.error InverseFailure.SingularMatrix)
    else
      let g := L.getri M f.1.1 f.1.2
      if keepAssert && decide (g.2 < 0) then
        ([SolverCall.getrf, SolverCall.getri], Except.error InverseFailure.BadArgument)
      else if g.2 ≠ 0 then
        ([SolverCall.getrf, SolverCall.getri], Except.error InverseFailure.SingularMatrix)
      else ([SolverCall.getrf, SolverCall.getri], Except.ok g.1)

/-- A solver whose two entry points leave the buffer as it is and report the
given statuses: `s1` from Factorize, `s2` from Invert-from-factors. -/
def Lapack.reportStatus (E : Type) (s1 s2 : Int) : Lapack E where
  getrf := fun _ a => ((a, fun _ => 0), s1)
  getri := fun _ a _ => (a, s2)

/-! ## Properties of the determinant -/

/-- The sign-alternating accumulation loop of the general `det`: after all `n`
iterations the sign is `(-1)^n` and the result is the alternating sum. -/
theorem signedLoop_eq {E : Type} [Ring E] (n : Nat) (a b : Fin n → E) :
    Fin.foldl n (fun (st : E × E) (j : Fin n) => (-st.1, st.2 + st.1 * a j * b j)) (1, 0)
      = ((-1) ^ n, ∑ j : Fin n, (-1) ^ (j : ℕ) * a j * b j) := by
  induction n with
  | zero => simp
  | succ n ih =>
    rw [Fin.foldl_succ_last]
    have h := ih (fun j => a (Fin.castSucc j)) (fun j => b (Fin.castSucc j))
    simp only [] at h ⊢
    rw [h, Fin.sum_univ_castSucc]
    simp [pow_succ]

/-- The general template computes the first-row cofactor expansion. -/
theorem detExpand_eq_sum {E : Type} [Ring E] (n : Nat) (detSub : Mat n n E → E)
    (m : Mat (n + 1) (n + 1) E) :
    detExpand n detSub m
      = ∑ j : Fin (n + 1), (-1) ^ (j : ℕ) * m 0 j * detSub (m.submatrix Fin.succ j.succAbove) := by
  unfold detExpand
  simp only []
  rw [signedLoop_eq (n + 1) (fun j => m 0 j)
    (fun j => detSub (Mat.dropCol (Mat.getSubMat_1_0 m) j))]
  rfl

/-- The program's determinant agrees with the permutation-sum determinant for
every size `n+1`. -/
theorem det_succ_eq_matrix_det {R : Type} [CommRing R] (n : Nat) (m : Mat (n + 1) (n + 1) R) :
    det (n + 1) m = Matrix.det m := by
  induction n with
  | zero => simp [det, Matrix.det_fin_one]
  | succ n ih =>
    match n, ih with
    | 0, _ => simp [det, Matrix.det_fin_two]
    | 1, _ => rw [Matrix.det_fin_three]; simp only [det]; ring
    | (k + 2), ih =>
      show detExpand (k + 3) (det (k + 3)) m = Matrix.det m
      rw [detExpand_eq_sum, Matrix.det_succ_row_zero]
      refine Finset.sum_congr rfl fun j _ => ?_
      rw [ih]

/-! ## Properties of the closed-form inverses -/

/-- The intermediate `d` of the 3x3 inverse is the determinant. -/
theorem inverse3_trace_fst {K : Type} [Field K] (m : Mat 3 3 K) :
    (inverse3_trace m).1 = Matrix.det m := by
  rw [Matrix.det_fin_three]
  simp only [inverse3_trace]
  ring

/-- Every entry of the 3x3 inverse is a signed minor over the determinant. -/
theorem inverse3_apply {K : Type} [Field K] (m : Mat 3 3 K) (i j : Fin 3) :
    inverse3 m i j
      = (-1) ^ ((i : ℕ) + (j : ℕ)) * Matrix.det (m.submatrix j.succAbove i.succAbove)
          / Matrix.det m := by
  have hd := inverse3_trace_fst m
  simp only [inverse3_trace] at hd
  rw [← hd]
  fin_cases i <;> fin_cases j <;>
    simp [inverse3, inverse3_trace, Matrix.det_fin_two, Fin.succAbove, Fin.lt_def] <;>
    ring

/-- The 3x3 closed form is the adjugate scaled by the reciprocal determinant,
for every matrix, singular or not. -/
theorem inverse3_eq_smul_adjugate {K : Type} [Field K] (m : Mat 3 3 K) :
    inverse3 m = (Matrix.det m)⁻¹ • Matrix.adjugate m := by
  ext i j
  rw [inverse3_apply, Matrix.smul_apply, Matrix.adjugate_fin_succ_eq_det_submatrix,
    smul_eq_mul, add_comm, div_eq_inv_mul]

/-- The 2x2 closed form is the swapped and negated matrix scaled by the
reciprocal determinant, for every matrix, singular or not. -/
theorem inverse2_eq_smul {K : Type} [Field K] (m : Mat 2 2 K) :
    inverse2 m = (1 / Matrix.det m) • !![m 1 1, -m 0 1; -m 1 0, m 0 0] := by
  rw [Matrix.det_fin_two]
  ext i j
  fin_cases i <;> fin_cases j <;> simp [inverse2, det]

/-- A reciprocal-determinant multiple of the adjugate is a two-sided inverse
when the determinant is not zero. -/
theorem smul_adjugate_inverse {K : Type} [Field K] {n : Nat} (m : Mat n n K)
    (h : Matrix.det m ≠ 0) :
    ((Matrix.det m)⁻¹ • Matrix.adjugate m) * m = 1 ∧
      m * ((Matrix.det m)⁻¹ • Matrix.adjugate m) = 1 := by
  constructor
  · rw [Matrix.smul_mul, Matrix.adjugate_mul, smul_smul, inv_mul_cancel₀ h, one_smul]
  · rw [Matrix.mul_smul, Matrix.mul_adjugate, smul_smul, inv_mul_cancel₀ h, one_smul]

/-- The 1x1 closed form is a two-sided inverse when the element is not zero. -/
theorem inverse1_mul {K : Type} [Field K] (a : Mat 1 1 K) (h : Matrix.det a ≠ 0) :
    inverse1 a * a = 1 ∧ a * inverse1 a = 1 := by
  rw [Matrix.det_fin_one] at h
  constructor <;>
  · ext i j
    fin_cases i; fin_cases j
    simp [inverse1, Matrix.mul_apply, h]

/-- The 2x2 closed form is a two-sided inverse when the determinant is not
zero. -/
theorem inverse2_mul {K : Type} [Field K] (b : Mat 2 2 K) (h : Matrix.det b ≠ 0) :
    inverse2 b * b = 1 ∧ b * inverse2 b = 1 := by
  have e : inverse2 b = (Matrix.det b)⁻¹ • Matrix.adjugate b := by
    rw [inverse2_eq_smul, Matrix.adjugate_fin_two, one_div]
  rw [e]
  exact smul_adjugate_inverse b h

/-! ## Properties of the products -/

/-- The recursion of `dot` adds up the conjugated products in index order. -/
theorem dot_succ_eq_sum {E : Type} [Semiring E] [Star E] (n : Nat) (v w : Vec (n + 1) E) :
    dot (n + 1) v w = ∑ i : Fin (n + 1), star (v.elt i) * w.elt i := by
  induction n with
  | zero => simp [dot]
  | succ n ih =>
    rw [Fin.sum_univ_castSucc]
    show dot (n + 1) v.front w.front + _ = _
    rw [ih]
    rfl

/-- The recursion of row times vector adds up the plain products in index
order. -/
theorem rowMulVec_succ_eq_sum {E : Type} [Semiring E] (n : Nat) (r : Row (n + 1) E)
    (v : Vec (n + 1) E) :
    rowMulVec (n + 1) r v = ∑ i : Fin (n + 1), r.elt i * v.elt i := by
  induction n with
  | zero => simp [rowMulVec]
  | succ n ih =>
    rw [Fin.sum_univ_castSucc]
    show rowMulVec (n + 1) r.front v.front + _ = _
    rw [ih]
    rfl

/-- The sum form of `dot` at any length `N >= 1`. -/
theorem dot_eq_sum_of_pos {E : Type} [Semiring E] [Star E] (N : Nat) (hN : 1 ≤ N)
    (v w : Vec N E) : dot N v w = ∑ i : Fin N, star (v.elt i) * w.elt i := by
  obtain ⟨n, rfl⟩ : ∃ n, N = n + 1 := ⟨N - 1, by omega⟩
  exact dot_succ_eq_sum n v w

/-- The sum form of row times vector at any length `N >= 1`. -/
theorem rowMulVec_eq_sum_of_pos {E : Type} [Semiring E] (N : Nat) (hN : 1 ≤ N)
    (r : Row N E) (v : Vec N E) : rowMulVec N r v = ∑ i : Fin N, r.elt i * v.elt i := by
  obtain ⟨n, rfl⟩ : ∃ n, N = n + 1 := ⟨N - 1, by omega⟩
  exact rowMulVec_succ_eq_sum n r v

/-! ## The claims -/

/-- C1: for every 3x3 matrix over a field with non-zero determinant, the
closed-form `inverse` is a left and a right inverse, the intermediate `d` it
divides by is the determinant (the standard one, which is also the program's
`det`), and entry `(i,j)` of the result is `(-1)^(i+j) * minor(j,i) / det`. -/
theorem inverse3_correct {K : Type} [Field K] (m : Mat 3 3 K) (h : Matrix.det m ≠ 0) :
    inverse3 m * m = 1 ∧ m * inverse3 m = 1 ∧
    (inverse3_trace m).1 = Matrix.det m ∧ (inverse3_trace m).1 = det 3 m ∧
    ∀ i j : Fin 3, inverse3 m i j
      = (-1) ^ ((i : ℕ) + (j : ℕ)) * Matrix.det (m.submatrix j.succAbove i.succAbove)
          / Matrix.det m := by
  refine ⟨?_, ?_, inverse3_trace_fst m, ?_, inverse3_apply m⟩
  · rw [inverse3_eq_smul_adjugate]; exact (smul_adjugate_inverse m h).1
  · rw [inverse3_eq_smul_adjugate]; exact (smul_adjugate_inverse m h).2
  · rw [inverse3_trace_fst, ← det_succ_eq_matrix_det 2 m]

/-- C1 at the matrix `[[1,2,3],[0,1,4],[5,6,0]]`, whose determinant is 1. -/
theorem inverse3_correct_witness :
    Matrix.det !![(1 : ℚ), 2, 3; 0, 1, 4; 5, 6, 0] ≠ 0 ∧
    inverse3 !![(1 : ℚ), 2, 3; 0, 1, 4; 5, 6, 0] * !![(1 : ℚ), 2, 3; 0, 1, 4; 5, 6, 0] = 1 ∧
    !![(1 : ℚ), 2, 3; 0, 1, 4; 5, 6, 0] * inverse3 !![(1 : ℚ), 2, 3; 0, 1, 4; 5, 6, 0] = 1 :=
  have h : Matrix.det !![(1 : ℚ), 2, 3; 0, 1, 4; 5, 6, 0] ≠ 0 := by
    rw [Matrix.det_fin_three]; norm_num
  ⟨h, (inverse3_correct _ h).1, (inverse3_correct _ h).2.1⟩

/-- C2: for every 1x1 and every 2x2 matrix over a field with non-zero
determinant, `inverse` is a left and a right inverse; the 1x1 result is
`1/m00` and the 2x2 result is `(1/det) * [[m11, -m01], [-m10, m00]]`; and the
two concrete inverses of the specification hold. -/
theorem inverse_1_2_correct {K : Type} [Field K] (a : Mat 1 1 K) (b : Mat 2 2 K)
    (ha : Matrix.det a ≠ 0) (hb : Matrix.det b ≠ 0) :
    (inverse1 a * a = 1 ∧ a * inverse1 a = 1 ∧ inverse1 a = !![1 / a 0 0]) ∧
    (inverse2 b * b = 1 ∧ b * inverse2 b = 1 ∧
      inverse2 b = (1 / Matrix.det b) • !![b 1 1, -b 0 1; -b 1 0, b 0 0] ∧
      det 2 b = Matrix.det b) ∧
    inverse2 !![(2 : ℚ), 0; 0, 4] = !![1 / 2, 0; 0, 1 / 4] ∧
    inverse2 !![(1 : ℚ), 2; 3, 4] = !![-2, 1; 3 / 2, -1 / 2] := by
  refine ⟨⟨(inverse1_mul a ha).1, (inverse1_mul a ha).2, rfl⟩,
    ⟨(inverse2_mul b hb).1, (inverse2_mul b hb).2, inverse2_eq_smul b,
      det_succ_eq_matrix_det 1 b⟩, ?_, ?_⟩
  · ext i j
    fin_cases i <;> fin_cases j <;> norm_num [inverse2, det]
  · ext i j
    fin_cases i <;> fin_cases j <;> norm_num [inverse2, det]

/-- C2 at the matrices `[[3]]` and `[[1,2],[3,4]]`. -/
theorem inverse_1_2_correct_witness :
    (Matrix.det !![(3 : ℚ)] ≠ 0 ∧ Matrix.det !![(1 : ℚ), 2; 3, 4] ≠ 0) ∧
    inverse1 !![(3 : ℚ)] * !![(3 : ℚ)] = 1 ∧
    inverse2 !![(1 : ℚ), 2; 3, 4] * !![(1 : ℚ), 2; 3, 4] = 1 ∧
    !![(1 : ℚ), 2; 3, 4] * inverse2 !![(1 : ℚ), 2; 3, 4] = 1 :=
  have ha : Matrix.det !![(3 : ℚ)] ≠ 0 := by rw [Matrix.det_fin_one]; norm_num
  have hb : Matrix.det !![(1 : ℚ), 2; 3, 4] ≠ 0 := by rw [Matrix.det_fin_two]; norm_num
  ⟨⟨ha, hb⟩, (inverse_1_2_correct _ _ ha hb).1.1, (inverse_1_2_correct _ _ ha hb).2.1.1,
    (inverse_1_2_correct _ _ ha hb).2.1.2.1⟩

/-- C3, as stated, fails: the matrix `[[1,2],[2,4]]` has determinant zero, and
`inverse` returns a matrix for it, the closed form, whether or not the build
keeps its assertions; it raises no failure. -/
theorem inverse_singular_returns_matrix :
    Matrix.det !![(1 : ℚ), 2; 2, 4] = 0 ∧
    inverse (Lapack.reportSingular ℚ) true 2 !![(1 : ℚ), 2; 2, 4]
      = Except.ok (inverse2 !![(1 : ℚ), 2; 2, 4]) ∧
    inverse (Lapack.reportSingular ℚ) false 2 !![(1 : ℚ), 2; 2, 4]
      = Except.ok (inverse2 !![(1 : ℚ), 2; 2, 4]) := by
  refine ⟨?_, rfl, rfl⟩
  rw [Matrix.det_fin_two]; norm_num

/-- C3, amended: for every square matrix of size 1, 2 or 3, singular or not,
and whatever the solver and the build, `inverse` raises no failure: it returns
the closed form, `1/m00` at size 1 and the reciprocal determinant times the
adjugate (the transposed matrix of signed minors) at sizes 2 and 3. -/
theorem inverse_small_unchecked {K : Type} [Field K] (L : Lapack K) (keepAssert : Bool)
    (a : Mat 1 1 K) (b : Mat 2 2 K) (c : Mat 3 3 K) :
    inverse L keepAssert 1 a = Except.ok !![1 / a 0 0] ∧
    inverse L keepAssert 2 b
      = Except.ok ((1 / Matrix.det b) • !![b 1 1, -b 0 1; -b 1 0, b 0 0]) ∧
    inverse L keepAssert 3 c = Except.ok ((1 / Matrix.det c) • Matrix.adjugate c) := by
  refine ⟨rfl, ?_, ?_⟩
  · show Except.ok (inverse2 b) = _
    rw [inverse2_eq_smul]
  · show Except.ok (inverse3 c) = _
    rw [inverse3_eq_smul_adjugate, one_div]

/-- C4: for every size `N >= 1` the program's `det` is the permutation-sum
determinant; sizes 1, 2 and 3 are the closed forms, and every size above 3 is
the first-row cofactor expansion over the determinants of the next smaller
size, a recursion that ends at the 3x3 closed form; the two concrete
determinants of the specification hold. -/
theorem det_eq_leibniz {R : Type} [CommRing R] (N : Nat) (hN : 1 ≤ N) (m : Mat N N R) :
    det N m = Matrix.det m ∧
    (∀ a : Mat 1 1 R, det 1 a = a 0 0) ∧
    (∀ a : Mat 2 2 R, det 2 a = a 0 0 * a 1 1 - a 0 1 * a 1 0) ∧
    (∀ a : Mat 3 3 R, det 3 a = a 0 0 * (a 1 1 * a 2 2 - a 1 2 * a 2 1)
        - a 0 1 * (a 1 0 * a 2 2 - a 1 2 * a 2 0)
        + a 0 2 * (a 1 0 * a 2 1 - a 1 1 * a 2 0)) ∧
    (∀ (n : Nat) (a : Mat (n + 4) (n + 4) R), det (n + 4) a
        = ∑ j : Fin (n + 4), (-1) ^ (j : ℕ) * a 0 j
            * det (n + 3) (a.submatrix Fin.succ j.succAbove)) ∧
    det 2 !![(2 : ℤ), 0; 0, 4] = 8 ∧ det 2 !![(1 : ℤ), 2; 3, 4] = -2 := by
  refine ⟨?_, fun _ => rfl, fun _ => rfl, fun _ => rfl, ?_, ?_, ?_⟩
  · obtain ⟨n, rfl⟩ : ∃ n, N = n + 1 := ⟨N - 1, by omega⟩
    exact det_succ_eq_matrix_det n m
  · intro n a
    show detExpand (n + 3) (det (n + 3)) a = _
    rw [detExpand_eq_sum]
  · norm_num [det]
  · norm_num [det]

/-- C4 at size 2 and the matrix `[[1,2],[3,4]]`. -/
theorem det_eq_leibniz_witness :
    1 ≤ 2 ∧ det 2 !![(1 : ℤ), 2; 3, 4] = Matrix.det !![(1 : ℤ), 2; 3, 4] :=
  ⟨by decide, (det_eq_leibniz 2 (by decide) !![(1 : ℤ), 2; 3, 4]).1⟩

/-- C5: for every 2x2 and every 3x3 matrix the closed-form `det` has the value
of the general first-row cofactor expansion run on the same matrix with the
next smaller specialization for the sub-determinants: both the loop of the
general template and the sum it stands for. -/
theorem det_special_eq_expansion {R : Type} [CommRing R] (a : Mat 2 2 R) (b : Mat 3 3 R) :
    det 2 a = detExpand 1 (det 1) a ∧
    det 3 b = detExpand 2 (det 2) b ∧
    det 2 a = ∑ j : Fin 2, (-1) ^ (j : ℕ) * a 0 j * det 1 (a.submatrix Fin.succ j.succAbove) ∧
    det 3 b = ∑ j : Fin 3, (-1) ^ (j : ℕ) * b 0 j * det 2 (b.submatrix Fin.succ j.succAbove) := by
  have h2 : det 2 a
      = ∑ j : Fin 2, (-1) ^ (j : ℕ) * a 0 j * det 1 (a.submatrix Fin.succ j.succAbove) := by
    simp [det, Fin.sum_univ_two, Fin.succAbove, Fin.lt_def]
    ring
  have h3 : det 3 b
      = ∑ j : Fin 3, (-1) ^ (j : ℕ) * b 0 j * det 2 (b.submatrix Fin.succ j.succAbove) := by
    simp [det, Fin.sum_univ_three, Fin.succAbove, Fin.lt_def]
    ring
  refine ⟨?_, ?_, h2, h3⟩
  · rw [detExpand_eq_sum]; exact h2
  · rw [detExpand_eq_sum]; exact h3

/-- C6: for every `N >= 1` and all length-`N` vectors `v`, `w`, the recursive
`dot(v, w)` is the sum over `i` of `transpose(v[i]) * w[i]`, the first
operand conjugated and the second unchanged; and `dot((1,2,3),(1,2,3)) = 14`. -/
theorem dot_hermitian_sum {E : Type} [Semiring E] [Star E] (N : Nat) (hN : 1 ≤ N) (v w : Vec N E) :
    dot N v w = ∑ i : Fin N, star (v.elt i) * w.elt i ∧
    dot 3 (Vec.mk ![(1 : ℤ), 2, 3]) (Vec.mk ![(1 : ℤ), 2, 3]) = 14 := by
  refine ⟨dot_eq_sum_of_pos N hN v w, ?_⟩
  simp [dot, Vec.front, Fin.last]

/-- C6 at the vectors `(1,2,3)` and `(4,5,6)`. -/
theorem dot_hermitian_sum_witness :
    1 ≤ 3 ∧ dot 3 (Vec.mk ![(1 : ℤ), 2, 3]) (Vec.mk ![(4 : ℤ), 5, 6])
      = ∑ i : Fin 3, star ((Vec.mk ![(1 : ℤ), 2, 3]).elt i) * (Vec.mk ![(4 : ℤ), 5, 6]).elt i :=
  ⟨by decide, (dot_hermitian_sum 3 (by decide) _ _).1⟩

/-- C7: for every `N >= 1`, every length-`N` row `r` and vector `v`, the infix
product `r * v` is the sum over `i` of `r[i] * v[i]`; no element is
conjugated. -/
theorem rowMulVec_plain_sum {E : Type} [Semiring E] (N : Nat) (hN : 1 ≤ N)
    (r : Row N E) (v : Vec N E) : rowMulVec N r v = ∑ i : Fin N, r.elt i * v.elt i :=
  rowMulVec_eq_sum_of_pos N hN r v

/-- C7 at the row `(1,2,3)` and the vector `(4,5,6)`. -/
theorem rowMulVec_plain_sum_witness :
    1 ≤ 3 ∧ rowMulVec 3 (Row.mk ![(1 : ℤ), 2, 3]) (Vec.mk ![(4 : ℤ), 5, 6])
      = ∑ i : Fin 3, (Row.mk ![(1 : ℤ), 2, 3]).elt i * (Vec.mk ![(4 : ℤ), 5, 6]).elt i :=
  ⟨by decide, rowMulVec_plain_sum 3 (by decide) _ _⟩

/-- C8: for every `N >= 1`, rows `r`, `s` and vectors `v`, `w` of length `N`:
each `dot` overload taking a row is `dot` of the positional transposes, so
every orientation gives the sum of `transpose(first[i]) * second[i]`;
`dot(v, w) = (~v) * w`; `dot(r, v)` is (the elementwise conjugate of `r`)
times `v`; and for a given row `r` that product agrees with the infix `r * v`
on every `v` exactly when conjugation fixes every element of `r`. -/
theorem dot_orientation {E : Type} [Semiring E] [Star E] (N : Nat) (hN : 1 ≤ N)
    (r s : Row N E) (v w : Vec N E) :
    dot_Row_Vec N r v = dot N r.positionalTranspose v ∧
    dot_Vec_Row N v r = dot N v r.positionalTranspose ∧
    dot_Row_Row N r s = dot N r.positionalTranspose s.positionalTranspose ∧
    dot_Row_Vec N r v = ∑ i : Fin N, star (r.elt i) * v.elt i ∧
    dot_Vec_Row N v r = ∑ i : Fin N, star (v.elt i) * r.elt i ∧
    dot_Row_Row N r s = ∑ i : Fin N, star (r.elt i) * s.elt i ∧
    dot N v w = ∑ i : Fin N, star (v.elt i) * w.elt i ∧
    dot N v w = rowMulVec N v.transpose w ∧
    dot_Row_Vec N r v = rowMulVec N (Row.mk fun i => star (r.elt i)) v ∧
    ((∀ u : Vec N E, dot_Row_Vec N r u = rowMulVec N r u) ↔ ∀ i, star (r.elt i) = r.elt i) := by
  refine ⟨rfl, rfl, rfl, dot_eq_sum_of_pos N hN _ _, dot_eq_sum_of_pos N hN _ _,
    dot_eq_sum_of_pos N hN _ _, dot_eq_sum_of_pos N hN _ _, ?_, ?_, ?_⟩
  · rw [dot_eq_sum_of_pos N hN, rowMulVec_eq_sum_of_pos N hN]; rfl
  · rw [rowMulVec_eq_sum_of_pos N hN]; exact dot_eq_sum_of_pos N hN _ _
  · constructor
    · intro h i
      have hi := h (Vec.mk (Pi.single i 1))
      rw [rowMulVec_eq_sum_of_pos N hN] at hi
      have hl : dot_Row_Vec N r (Vec.mk (Pi.single i 1))
          = ∑ k : Fin N, star (r.elt k) * (Pi.single i (1 : E) : Fin N → E) k :=
        dot_eq_sum_of_pos N hN _ _
      rw [hl] at hi
      simpa [Pi.single_apply] using hi
    · intro h u
      rw [rowMulVec_eq_sum_of_pos N hN]
      have hl : dot_Row_Vec N r u = ∑ k : Fin N, star (r.elt k) * u.elt k :=
        dot_eq_sum_of_pos N hN _ _
      rw [hl]
      exact Finset.sum_congr rfl fun k _ => by rw [h k]

/-- C8 at the row `(i, 2)` and the vector `(1, 1)` over the complex numbers:
`dot` conjugates the row. -/
theorem dot_orientation_witness :
    1 ≤ 2 ∧
    dot_Row_Vec 2 (Row.mk ![Complex.I, 2]) (Vec.mk ![(1 : ℂ), 1])
      = ∑ i : Fin 2, star ((Row.mk ![Complex.I, 2]).elt i) * (Vec.mk ![(1 : ℂ), 1]).elt i :=
  ⟨by decide,
    (dot_orientation 2 (by decide) (Row.mk ![Complex.I, 2]) (Row.mk ![Complex.I, 2])
      (Vec.mk ![(1 : ℂ), 1]) (Vec.mk ![(1 : ℂ), 1])).2.2.2.1⟩

/-- The self dot product is the sum of the squared moduli. -/
theorem dot_self_eq_sum_norm_sq {𝕜 : Type} [RCLike 𝕜] (N : Nat) (hN : 1 ≤ N) (v : Vec N 𝕜) :
    dot N v v = ((∑ i : Fin N, ‖v.elt i‖ ^ 2 : ℝ) : 𝕜) := by
  rw [dot_eq_sum_of_pos N hN]
  push_cast
  refine Finset.sum_congr rfl fun i _ => ?_
  rw [← starRingEnd_apply, RCLike.conj_mul]

/-- C9: for every `N >= 1` and every length-`N` vector `v` with real or complex
elements, `dot(v, v)` has imaginary part zero and real part `>= 0`, it is the
sum of the squared moduli of the elements, and it is zero only when `v` is
the zero vector. -/
theorem dot_self_real_nonneg {𝕜 : Type} [RCLike 𝕜] (N : Nat) (hN : 1 ≤ N) (v : Vec N 𝕜) :
    RCLike.im (dot N v v) = 0 ∧ 0 ≤ RCLike.re (dot N v v) ∧
    dot N v v = ((∑ i : Fin N, ‖v.elt i‖ ^ 2 : ℝ) : 𝕜) ∧
    (dot N v v = 0 → ∀ i, v.elt i = 0) := by
  have hs := dot_self_eq_sum_norm_sq N hN v
  have hnn : ∀ i ∈ (Finset.univ : Finset (Fin N)), 0 ≤ ‖v.elt i‖ ^ 2 :=
    fun i _ => pow_two_nonneg _
  refine ⟨?_, ?_, hs, ?_⟩
  · rw [hs, RCLike.ofReal_im]
  · rw [hs, RCLike.ofReal_re]; exact Finset.sum_nonneg hnn
  · intro h0 i
    rw [hs] at h0
    have h1 : (∑ i : Fin N, ‖v.elt i‖ ^ 2 : ℝ) = 0 := by exact_mod_cast h0
    have h2 := (Finset.sum_eq_zero_iff_of_nonneg hnn).1 h1 i (Finset.mem_univ i)
    exact norm_eq_zero.1 ((pow_eq_zero_iff two_ne_zero).1 h2)

/-- C9 at the complex vector `(i, 1)`. -/
theorem dot_self_real_nonneg_witness :
    1 ≤ 2 ∧ RCLike.im (dot 2 (Vec.mk ![Complex.I, 1]) (Vec.mk ![Complex.I, 1])) = 0 ∧
    0 ≤ RCLike.re (dot 2 (Vec.mk ![Complex.I, 1]) (Vec.mk ![Complex.I, 1])) :=
  ⟨by decide, (dot_self_real_nonneg 2 (by decide) (Vec.mk ![Complex.I, 1])).1,
    (dot_self_real_nonneg 2 (by decide) (Vec.mk ![Complex.I, 1])).2.1⟩

/-- C10: for all length-`M` vectors `v`, `w`, entry `(i, j)` of `outer(v, w)` is
`v[i] * transpose(w[j])`, the first operand unchanged and the second
conjugated; each overload taking a row returns `outer` of the positional
transposes, hence the same entries. -/
theorem outer_apply {E : Type} [Mul E] [Star E] (M : Nat) (v w : Vec M E) (r s : Row M E) :
    (∀ i j : Fin M, outer M v w i j = v.elt i * star (w.elt j)) ∧
    outer_Vec_Row M v r = outer M v r.positionalTranspose ∧
    outer_Row_Vec M r v = outer M r.positionalTranspose v ∧
    outer_Row_Row M r s = outer M r.positionalTranspose s.positionalTranspose ∧
    (∀ i j : Fin M, outer_Vec_Row M v r i j = v.elt i * star (r.elt j)) ∧
    (∀ i j : Fin M, outer_Row_Vec M r v i j = r.elt i * star (v.elt j)) ∧
    (∀ i j : Fin M, outer_Row_Row M r s i j = r.elt i * star (s.elt j)) :=
  ⟨fun _ _ => rfl, rfl, rfl, rfl, fun _ _ => rfl, fun _ _ => rfl, fun _ _ => rfl⟩

/-! ## Properties of the cross product and of the matrix products -/

/-- Two vectors with the same elements are equal. -/
theorem vec_ext {N : Nat} {E : Type} {a b : Vec N E} (h : ∀ i, a.elt i = b.elt i) : a = b := by
  cases a; cases b
  congr 1
  exact funext h

/-- Two rows with the same elements are equal. -/
theorem row_ext {N : Nat} {E : Type} {a b : Row N E} (h : ∀ i, a.elt i = b.elt i) : a = b := by
  cases a; cases b
  congr 1
  exact funext h

/-- C11: in each of the four orientation combinations the 3-D `cross` has the
components `(a1*b2 - a2*b1, a2*b0 - a0*b2, a0*b1 - a1*b0)`, no element
conjugated; the result is a `Vec` for two `Vec` operands and a `Row` in the
three other cases; each `operator%` is the `cross` of the same operands; and
`cross((1,0,0),(0,1,0)) = (0,0,1)`. -/
theorem cross3_components {E : Type} [Mul E] [Sub E] (a b : Vec 3 E) (r s : Row 3 E) :
    cross a b = Vec.mk ![a.elt 1 * b.elt 2 - a.elt 2 * b.elt 1,
      a.elt 2 * b.elt 0 - a.elt 0 * b.elt 2, a.elt 0 * b.elt 1 - a.elt 1 * b.elt 0] ∧
    cross_Vec_Row a s = Row.mk ![a.elt 1 * s.elt 2 - a.elt 2 * s.elt 1,
      a.elt 2 * s.elt 0 - a.elt 0 * s.elt 2, a.elt 0 * s.elt 1 - a.elt 1 * s.elt 0] ∧
    cross_Row_Vec r b = Row.mk ![r.elt 1 * b.elt 2 - r.elt 2 * b.elt 1,
      r.elt 2 * b.elt 0 - r.elt 0 * b.elt 2, r.elt 0 * b.elt 1 - r.elt 1 * b.elt 0] ∧
    cross_Row_Row r s = Row.mk ![r.elt 1 * s.elt 2 - r.elt 2 * s.elt 1,
      r.elt 2 * s.elt 0 - r.elt 0 * s.elt 2, r.elt 0 * s.elt 1 - r.elt 1 * s.elt 0] ∧
    crossOp a b = cross a b ∧ crossOp_Vec_Row a s = cross_Vec_Row a s ∧
    crossOp_Row_Vec r b = cross_Row_Vec r b ∧ crossOp_Row_Row r s = cross_Row_Row r s ∧
    cross (Vec.mk ![(1 : ℤ), 0, 0]) (Vec.mk ![(0 : ℤ), 1, 0]) = Vec.mk ![(0 : ℤ), 0, 1] := by
  refine ⟨rfl, rfl, rfl, rfl, rfl, rfl, rfl, rfl, ?_⟩
  apply vec_ext
  intro i
  fin_cases i <;> simp [cross]

/-- C12: over a commutative ring `cross(a, b) = -cross(b, a)` component for
component, and every component of `cross(a, a)` is zero. -/
theorem cross_antisymm {R : Type} [CommRing R] (a b : Vec 3 R) :
    cross a b = Vec.neg (cross b a) ∧
    (∀ i : Fin 3, (cross a b).elt i = -(cross b a).elt i) ∧
    (∀ i : Fin 3, (cross a a).elt i = 0) := by
  have h : ∀ i : Fin 3, (cross a b).elt i = -(cross b a).elt i := by
    intro i
    fin_cases i <;> simp [cross] <;> ring
  refine ⟨vec_ext h, h, ?_⟩
  intro i
  fin_cases i <;> simp [cross] <;> ring

/-- C13: over a commutative ring the matrix-vector product `crossMat(v) * w` is
`cross(v, w)` element for element; for 2-vectors the row-times-vector product
`crossMat(v) * w` is the scalar `cross(v, w) = v0*w1 - v1*w0`; the `Row`
overloads of `crossMat`, for plain and for negated elements, return the matrix
of the positionally transposed vector; and
`crossMat((1,0,0)) * (0,1,0) = (0,0,1)`. -/
theorem crossMat_mul_eq_cross {R : Type} [CommRing R] (v w : Vec 3 R) (v2 w2 : Vec 2 R)
    (r : Row 3 R) (r2 : Row 2 R) (rn : Row 3 (negator R)) (rn2 : Row 2 (negator R)) :
    matMulVec 3 3 (crossMat v) w = cross v w ∧
    (∀ i : Fin 3, (matMulVec 3 3 (crossMat v) w).elt i = (cross v w).elt i) ∧
    rowMulVec 2 (crossMat2 v2) w2 = cross2 v2 w2 ∧
    cross2 v2 w2 = v2.elt 0 * w2.elt 1 - v2.elt 1 * w2.elt 0 ∧
    crossMat_Row r = crossMat (Vec.mk r.elt) ∧
    crossMat2_Row r2 = crossMat2 (Vec.mk r2.elt) ∧
    crossMat_negator_Row rn = crossMat_negator (Vec.mk rn.elt) ∧
    crossMat2_negator_Row rn2 = crossMat2_negator (Vec.mk rn2.elt) ∧
    matMulVec 3 3 (crossMat (Vec.mk ![(1 : ℤ), 0, 0])) (Vec.mk ![(0 : ℤ), 1, 0])
      = Vec.mk ![(0 : ℤ), 0, 1] := by
  have h : ∀ (x y : Vec 3 R) (i : Fin 3),
      (matMulVec 3 3 (crossMat x) y).elt i = (cross x y).elt i := by
    intro x y i
    fin_cases i <;>
      simp [matMulVec, rowMulVec, crossMat, cross, Mat.rowAt, Mat.ofRows, Row.front, Vec.front,
        Fin.last] <;> ring
  refine ⟨vec_ext (h v w), h v w, ?_, rfl, rfl, rfl, rfl, rfl, ?_⟩
  · simp [rowMulVec, crossMat2, cross2, Row.front, Vec.front, Fin.last]
    ring
  · apply vec_ext
    intro i
    fin_cases i <;>
      simp [matMulVec, rowMulVec, crossMat, Mat.rowAt, Mat.ofRows, Row.front, Vec.front,
        Fin.last]

/-- C14: for 3-vectors with elements in a commutative ring on which
conjugation is the identity (so `upper(i,j) = lower(j,i)`), the product
`crossMatSq(v) * w` is `-(v % (v % w))` component for component; and
`crossMatSq(v)` has diagonal `(y^2+z^2, x^2+z^2, x^2+y^2)` and lower elements
`(1,0) = -x*y`, `(2,0) = -x*z`, `(2,1) = -y*z` for `v = (x, y, z)`. -/
theorem crossMatSq_mul_eq_neg_cross_cross {R : Type} [CommRing R] [Star R] [TrivialStar R]
    (v w : Vec 3 R) :
    symMulVec3 (crossMatSq v) w = Vec.neg (crossOp v (crossOp v w)) ∧
    (∀ i : Fin 3, (symMulVec3 (crossMatSq v) w).elt i = -(crossOp v (crossOp v w)).elt i) ∧
    (crossMatSq v).getDiag.elt 0 = v.elt 1 ^ 2 + v.elt 2 ^ 2 ∧
    (crossMatSq v).getDiag.elt 1 = v.elt 0 ^ 2 + v.elt 2 ^ 2 ∧
    (crossMatSq v).getDiag.elt 2 = v.elt 0 ^ 2 + v.elt 1 ^ 2 ∧
    (crossMatSq v).getEltLower 1 0 = -(v.elt 0 * v.elt 1) ∧
    (crossMatSq v).getEltLower 2 0 = -(v.elt 0 * v.elt 2) ∧
    (crossMatSq v).getEltLower 2 1 = -(v.elt 1 * v.elt 2) ∧
    (∀ i j : Fin 3, i < j →
      (crossMatSq v).getEltUpper i j = (crossMatSq v).getEltLower j i) := by
  have h : ∀ i : Fin 3,
      (symMulVec3 (crossMatSq v) w).elt i = -(crossOp v (crossOp v w)).elt i := by
    intro i
    fin_cases i <;>
      simp [symMulVec3, crossMatSq, SymMat.mk3, SymMat.getDiag, SymMat.getEltLower,
        SymMat.getEltUpper, square, crossOp, cross] <;> ring
  refine ⟨vec_ext h, h, ?_, ?_, ?_, ?_, ?_, ?_, ?_⟩
  · simp [crossMatSq, SymMat.mk3, SymMat.getDiag, square, pow_two]
  · simp [crossMatSq, SymMat.mk3, SymMat.getDiag, square, pow_two]
  · simp [crossMatSq, SymMat.mk3, SymMat.getDiag, square, pow_two]
  · simp [crossMatSq, SymMat.mk3, SymMat.getEltLower]
  · simp [crossMatSq, SymMat.mk3, SymMat.getEltLower]
  · simp [crossMatSq, SymMat.mk3, SymMat.getEltLower]
  · intro i j _
    simp [SymMat.getEltUpper, SymMat.getEltLower]

/-- C14 at the integer vectors `v = (1,2,3)` and `w = (4,5,6)`. -/
theorem crossMatSq_mul_eq_neg_cross_cross_witness :
    symMulVec3 (crossMatSq (Vec.mk ![(1 : ℤ), 2, 3])) (Vec.mk ![(4 : ℤ), 5, 6])
      = Vec.neg (crossOp (Vec.mk ![(1 : ℤ), 2, 3])
          (crossOp (Vec.mk ![(1 : ℤ), 2, 3]) (Vec.mk ![(4 : ℤ), 5, 6]))) :=
  (crossMatSq_mul_eq_neg_cross_cross (Vec.mk ![(1 : ℤ), 2, 3]) (Vec.mk ![(4 : ℤ), 5, 6])).1

/-- C15, as stated, fails for complex elements: for `v = (0, i, 0)` entry
`(0,0)` of `crossMatSq(v)` is `i*i + 0*0 = -1`, while entry `(0,0)` of
`dot(v,v) * Identity - outer(v,v)` is `1`. -/
theorem crossMatSq_complex_differs :
    SymMat.toMat (crossMatSq (Vec.mk ![(0 : ℂ), Complex.I, 0])) 0 0 = -1 ∧
    (dot 3 (Vec.mk ![(0 : ℂ), Complex.I, 0]) (Vec.mk ![(0 : ℂ), Complex.I, 0])
        • (1 : Mat 3 3 ℂ)
      - outer 3 (Vec.mk ![(0 : ℂ), Complex.I, 0]) (Vec.mk ![(0 : ℂ), Complex.I, 0])) 0 0
      = 1 := by
  constructor
  · simp [SymMat.toMat, crossMatSq, SymMat.mk3, SymMat.getDiag, square]
  · simp [dot, outer, Mat.ofRows, Row.scalarMul, Vec.transpose, Vec.front, Fin.last]

/-- C15, amended: for every 3-vector `v` with elements in a commutative ring on
which conjugation is the identity (real elements), `crossMatSq(v)` read as a
full 3x3 matrix is `dot(v, v) * Identity - outer(v, v)`. -/
theorem crossMatSq_eq_dot_sub_outer_real {R : Type} [CommRing R] [Star R] [TrivialStar R]
    (v : Vec 3 R) :
    SymMat.toMat (crossMatSq v) = dot 3 v v • (1 : Mat 3 3 R) - outer 3 v v := by
  ext i j
  fin_cases i <;> fin_cases j <;>
    simp [SymMat.toMat, crossMatSq, SymMat.mk3, SymMat.getDiag, SymMat.getEltLower,
      SymMat.getEltUpper, square, dot, outer, Mat.ofRows, Row.scalarMul, Vec.transpose,
      Vec.front, Fin.last] <;> ring

/-- C15, amended, at the integer vector `v = (1,2,3)`. -/
theorem crossMatSq_eq_dot_sub_outer_real_witness :
    SymMat.toMat (crossMatSq (Vec.mk ![(1 : ℤ), 2, 3]))
      = dot 3 (Vec.mk ![(1 : ℤ), 2, 3]) (Vec.mk ![(1 : ℤ), 2, 3]) • (1 : Mat 3 3 ℤ)
        - outer 3 (Vec.mk ![(1 : ℤ), 2, 3]) (Vec.mk ![(1 : ℤ), 2, 3]) :=
  crossMatSq_eq_dot_sub_outer_real (Vec.mk ![(1 : ℤ), 2, 3])

/-- An accumulation loop `acc += f(j)` over `j = 0 .. n-1` adds the sum of the
terms to its initial value. -/
theorem foldl_add_eq_sum {E : Type} [AddCommMonoid E] (n : Nat) (f : Fin n → E) (init : E) :
    Fin.foldl n (fun (acc : E) (j : Fin n) => acc + f j) init = init + ∑ j : Fin n, f j := by
  induction n with
  | zero => simp
  | succ n ih =>
    rw [Fin.foldl_succ_last]
    have h := ih (fun j => f (Fin.castSucc j))
    simp only [] at h ⊢
    rw [h, Fin.sum_univ_castSucc, add_assoc]

/-- A sum over all indices splits into the term at `i`, the terms below `i`
and the terms above `i`, the last two indexed as the two loops index them. -/
theorem sum_split_at {E : Type} [AddCommMonoid E] (N : Nat) (i : Fin N) (g : Fin N → E) :
    ∑ j : Fin N, g j
      = g i + ∑ j : Fin i.val, g (Fin.castLE (Nat.le_of_lt i.isLt) j)
        + ∑ k : Fin (N - (i.val + 1)), g ⟨i.val + 1 + k.val, by omega⟩ := by
  have e1 : ∑ j : Fin N, g j
      = ∑ j ∈ Finset.range N, if h : j < N then g ⟨j, h⟩ else 0 :=
    Finset.sum_fin_eq_sum_range g
  have e2 : ∑ j : Fin i.val, g (Fin.castLE (Nat.le_of_lt i.isLt) j)
      = ∑ j ∈ Finset.range i.val, if h : j < N then g ⟨j, h⟩ else 0 := by
    rw [Finset.sum_fin_eq_sum_range]
    refine Finset.sum_congr rfl fun j hj => ?_
    have hj1 : j < i.val := Finset.mem_range.1 hj
    have hj2 : j < N := by omega
    simp [hj1, hj2]
  have e3 : ∑ k : Fin (N - (i.val + 1)), g ⟨i.val + 1 + k.val, by omega⟩
      = ∑ k ∈ Finset.Ico (i.val + 1) N, if h : k < N then g ⟨k, h⟩ else 0 := by
    rw [Finset.sum_Ico_eq_sum_range, Finset.sum_fin_eq_sum_range]
    refine Finset.sum_congr rfl fun k hk => ?_
    have hk1 : k < N - (i.val + 1) := Finset.mem_range.1 hk
    have hk2 : i.val + 1 + k < N := by omega
    simp [hk1, hk2]
  have e4 : (if h : i.val < N then g ⟨i.val, h⟩ else 0) = g i := by simp
  rw [e1, e2, e3, ← Finset.sum_range_add_sum_Ico _ (Nat.succ_le_of_lt i.isLt),
    Finset.sum_range_succ, e4, add_comm (g i)]

/-- The general symmetric-matrix-times-vector loop gives, at every index, the
product of the corresponding row of the full matrix with the vector. -/
theorem symMulVec_elt_eq_sum {E : Type} [Semiring E] [Star E] (N : Nat) (m : SymMat N E)
    (v : Vec N E) (i : Fin N) :
    (symMulVec N m v).elt i = ∑ j : Fin N, SymMat.toMat m i j * v.elt j := by
  unfold symMulVec
  simp only []
  rw [foldl_add_eq_sum (N - (i.val + 1))
      (fun k => m.getEltUpper i ⟨i.val + 1 + k.val, by omega⟩
        * v.elt ⟨i.val + 1 + k.val, by omega⟩),
    foldl_add_eq_sum i.val
      (fun j => m.getEltLower i (Fin.castLE (Nat.le_of_lt i.isLt) j)
        * v.elt (Fin.castLE (Nat.le_of_lt i.isLt) j)),
    sum_split_at N i (fun j => SymMat.toMat m i j * v.elt j)]
  congr 1
  · congr 1
    · simp [SymMat.toMat]
    · refine Finset.sum_congr rfl fun j _ => ?_
      have h1 : Fin.castLE (Nat.le_of_lt i.isLt) j < i := by
        rw [Fin.lt_def]; simp
      have h2 : Fin.castLE (Nat.le_of_lt i.isLt) j ≠ i := ne_of_lt h1
      simp [SymMat.toMat, h1, h2]
  · refine Finset.sum_congr rfl fun k _ => ?_
    have h1 : ¬ ((⟨i.val + 1 + k.val, by omega⟩ : Fin N) < i) := by
      rw [Fin.lt_def]; simp; omega
    have h2 : (⟨i.val + 1 + k.val, by omega⟩ : Fin N) ≠ i := by
      intro h
      have := congrArg Fin.val h
      simp at this
      omega
    simp [SymMat.toMat, h1, h2]

/-- C18: for every `M`, every `N >= 1`, every `M x N` matrix `m` and length-`N`
vector `v`, element `i` of `m * v` is the row-times-vector product of row `i`
of `m` with `v`, the sum over `j` of `m(i,j) * v[j]` with no conjugation: the
ordinary matrix-vector product. -/
theorem matMulVec_apply {E : Type} [Semiring E] (M N : Nat) (hN : 1 ≤ N) (m : Mat M N E)
    (v : Vec N E) :
    (∀ i : Fin M, (matMulVec M N m v).elt i = rowMulVec N (Mat.rowAt m i) v) ∧
    (∀ i : Fin M, (matMulVec M N m v).elt i = ∑ j : Fin N, m i j * v.elt j) ∧
    (matMulVec M N m v).elt = Matrix.mulVec m v.elt := by
  have h : ∀ i : Fin M, (matMulVec M N m v).elt i = ∑ j : Fin N, m i j * v.elt j :=
    fun i => rowMulVec_eq_sum_of_pos N hN (Mat.rowAt m i) v
  refine ⟨fun _ => rfl, h, ?_⟩
  funext i
  rw [h i]
  rfl

/-- C18 at the matrix `[[1,2],[3,4]]` and the vector `(5,6)`. -/
theorem matMulVec_apply_witness :
    1 ≤ 2 ∧
    (matMulVec 2 2 !![(1 : ℤ), 2; 3, 4] (Vec.mk ![(5 : ℤ), 6])).elt
      = Matrix.mulVec !![(1 : ℤ), 2; 3, 4] (Vec.mk ![(5 : ℤ), 6]).elt :=
  ⟨by decide, (matMulVec_apply 2 2 (by decide) !![(1 : ℤ), 2; 3, 4] (Vec.mk ![(5 : ℤ), 6])).2.2⟩

/-- C19: for every `M >= 1`, every `N`, every length-`M` row `r` and `M x N`
matrix `m`, every element `j < N` of `r * m` is `r` times column `j` of `m`,
the sum over `i` of `r[i] * m(i,j)` with no conjugation: the ordinary
vector-matrix product. -/
theorem rowMulMat_apply {E : Type} [Semiring E] (M N : Nat) (hM : 1 ≤ M) (r : Row M E)
    (m : Mat M N E) :
    (∀ j : Fin N, (rowMulMat M N r m).elt j = rowMulVec M r (Mat.colAt m j)) ∧
    (∀ j : Fin N, (rowMulMat M N r m).elt j = ∑ i : Fin M, r.elt i * m i j) ∧
    (rowMulMat M N r m).elt = Matrix.vecMul r.elt m := by
  have h : ∀ j : Fin N, (rowMulMat M N r m).elt j = ∑ i : Fin M, r.elt i * m i j :=
    fun j => rowMulVec_eq_sum_of_pos M hM r (Mat.colAt m j)
  refine ⟨fun _ => rfl, h, ?_⟩
  funext j
  rw [h j]
  rfl

/-- C19 at the row `(5,6)` and the 2x3 matrix `[[1,2,3],[4,5,6]]`. -/
theorem rowMulMat_apply_witness :
    1 ≤ 2 ∧
    (rowMulMat 2 3 (Row.mk ![(5 : ℤ), 6]) !![(1 : ℤ), 2, 3; 4, 5, 6]).elt
      = Matrix.vecMul (Row.mk ![(5 : ℤ), 6]).elt !![(1 : ℤ), 2, 3; 4, 5, 6] :=
  ⟨by decide,
    (rowMulMat_apply 2 3 (by decide) (Row.mk ![(5 : ℤ), 6]) !![(1 : ℤ), 2, 3; 4, 5, 6]).2.2⟩

/-- C20: for every `N`, every symmetric matrix `S` and length-`N` vector `v`,
element `i` of the general `S * v` loop is `diag[i]*v[i]` plus the sum over
`j < i` of `lower(i,j)*v[j]` plus the sum over `j > i` of `upper(i,j)*v[j]`;
so `S * v` is the matrix-times-vector product of the full matrix expanded from
`S`, whose entry `(i,j)` is the diagonal, lower or upper element according to
`i = j`, `i > j`, `i < j`. -/
theorem symMulVec_general {E : Type} [Semiring E] [Star E] (N : Nat) (m : SymMat N E)
    (v : Vec N E) :
    (∀ i : Fin N, (symMulVec N m v).elt i
      = m.getDiag.elt i * v.elt i
        + ∑ j ∈ Finset.univ.filter (fun j : Fin N => j < i), m.getEltLower i j * v.elt j
        + ∑ j ∈ Finset.univ.filter (fun j : Fin N => i < j), m.getEltUpper i j * v.elt j) ∧
    symMulVec N m v = matMulVec N N (SymMat.toMat m) v ∧
    (∀ i j : Fin N, SymMat.toMat m i j
      = if i = j then m.getDiag.elt i
        else if j < i then m.getEltLower i j else m.getEltUpper i j) := by
  refine ⟨?_, ?_, ?_⟩
  · intro i
    rw [symMulVec_elt_eq_sum, Finset.sum_filter, Finset.sum_filter]
    have hd : m.getDiag.elt i * v.elt i
        = ∑ j : Fin N, if j = i then m.getDiag.elt i * v.elt i else 0 := by
      simp
    rw [hd, ← Finset.sum_add_distrib, ← Finset.sum_add_distrib]
    refine Finset.sum_congr rfl fun j _ => ?_
    rcases lt_trichotomy j i with h | h | h
    · have h1 : j ≠ i := ne_of_lt h
      have h2 : ¬ i < j := not_lt_of_gt h
      simp [SymMat.toMat, h, h1, h2]
    · subst h
      simp [SymMat.toMat]
    · have h1 : j ≠ i := ne_of_gt h
      have h2 : ¬ j < i := not_lt_of_gt h
      simp [SymMat.toMat, h, h1, h2]
  · apply vec_ext
    intro i
    rw [symMulVec_elt_eq_sum]
    have hN : 1 ≤ N := by have := i.isLt; omega
    exact (rowMulVec_eq_sum_of_pos N hN (Mat.rowAt (SymMat.toMat m) i) v).symm
  · intro i j
    by_cases h : i = j
    · subst h
      simp [SymMat.toMat]
    · have h1 : j ≠ i := fun e => h e.symm
      simp [SymMat.toMat, h, h1]

/-- C16: for every 3-vector and every 2-vector `v` of negated views, the negator
specialization of `crossMat` returns, as plain values, the matrix the general
`crossMat` gives on the logical values of `v`: `[[0,-l2,l1],[l2,0,-l0],[-l1,l0,0]]`
in 3-D and the row `(-l1, l0)` in 2-D, for logical components `l`. -/
theorem crossMat_negator_eq_general {R : Type} [Ring R] (v : Vec 3 (negator R))
    (v2 : Vec 2 (negator R)) :
    crossMat_negator v = crossMat (Vec.logical v) ∧
    crossMat_negator v
      = !![0, -(v.elt 2).toPlain, (v.elt 1).toPlain;
           (v.elt 2).toPlain, 0, -(v.elt 0).toPlain;
           -(v.elt 1).toPlain, (v.elt 0).toPlain, 0] ∧
    crossMat2_negator v2 = crossMat2 (Vec.logical v2) ∧
    crossMat2_negator v2 = Row.mk ![-(v2.elt 1).toPlain, (v2.elt 0).toPlain] := by
  refine ⟨?_, ?_, ?_, ?_⟩
  · ext i j
    fin_cases i <;> fin_cases j <;>
      simp [crossMat_negator, crossMat, Vec.logical, Mat.ofRows, negator.neg, negator.toPlain]
  · ext i j
    fin_cases i <;> fin_cases j <;>
      simp [crossMat_negator, Mat.ofRows, negator.neg, negator.toPlain]
  · apply row_ext
    intro i
    fin_cases i <;> simp [crossMat2_negator, crossMat2, Vec.logical, negator.neg, negator.toPlain]
  · apply row_ext
    intro i
    fin_cases i <;> simp [crossMat2_negator, negator.neg, negator.toPlain]

/-- C17: for every 3-vector `v` of negated views, the negator specialization of
`crossMatSq` returns, as plain values, the symmetric matrix the general
`crossMatSq` gives on the logical values of `v`: the same diagonal and the same
three lower elements. -/
theorem crossMatSq_negator_eq_general {R : Type} [Ring R] (v : Vec 3 (negator R)) :
    crossMatSq_negator v = crossMatSq (Vec.logical v) ∧
    (∀ i : Fin 3, (crossMatSq_negator v).getDiag.elt i
      = (crossMatSq (Vec.logical v)).getDiag.elt i) ∧
    (crossMatSq_negator v).getEltLower 1 0 = (crossMatSq (Vec.logical v)).getEltLower 1 0 ∧
    (crossMatSq_negator v).getEltLower 2 0 = (crossMatSq (Vec.logical v)).getEltLower 2 0 ∧
    (crossMatSq_negator v).getEltLower 2 1 = (crossMatSq (Vec.logical v)).getEltLower 2 1 := by
  have h : crossMatSq_negator v = crossMatSq (Vec.logical v) := by
    simp [crossMatSq_negator, crossMatSq, square_negator, square, Vec.logical, negator.neg,
      negator.toPlain]
  refine ⟨h, ?_, ?_, ?_, ?_⟩
  · intro i; rw [h]
  · rw [h]
  · rw [h]
  · rw [h]

/-! ## Unrolled symmetric products, the solver-backed inverse, further identities -/

/-- C21: for `N = 1, 2, 3` the unrolled `SymMat * Vec` overload returns, for
every symmetric matrix and every vector of that size, the vector the general
double loop returns at that `N` (exact arithmetic: addition is associative
and commutative). -/
theorem symMulVec_unrolled_eq_general {E : Type} [Semiring E] [Star E]
    (m1 : SymMat 1 E) (v1 : Vec 1 E) (m2 : SymMat 2 E) (v2 : Vec 2 E)
    (m3 : SymMat 3 E) (v3 : Vec 3 E) :
    symMulVec1 m1 v1 = symMulVec 1 m1 v1 ∧
    symMulVec2 m2 v2 = symMulVec 2 m2 v2 ∧
    symMulVec3 m3 v3 = symMulVec 3 m3 v3 := by
  refine ⟨?_, ?_, ?_⟩
  · apply vec_ext
    intro i
    rw [symMulVec_elt_eq_sum]
    fin_cases i
    simp [symMulVec1, SymMat.toMat]
  · apply vec_ext
    intro i
    rw [symMulVec_elt_eq_sum]
    fin_cases i <;> simp [symMulVec2, SymMat.toMat, Fin.sum_univ_two]
  · apply vec_ext
    intro i
    rw [symMulVec_elt_eq_sum]
    fin_cases i <;> simp [symMulVec3, SymMat.toMat, Fin.sum_univ_three]

/-- The general row-times-symmetric-matrix loop gives, at every index, the
product of the row with the corresponding column of the full matrix. -/
theorem rowMulSym_elt_eq_sum {E : Type} [Semiring E] [Star E] (M : Nat) (r : Row M E)
    (m : SymMat M E) (j : Fin M) :
    (rowMulSym M r m).elt j = ∑ i : Fin M, r.elt i * SymMat.toMat m i j := by
  unfold rowMulSym
  simp only []
  rw [foldl_add_eq_sum (M - (j.val + 1))
      (fun k => r.elt ⟨j.val + 1 + k.val, by omega⟩
        * m.getEltLower ⟨j.val + 1 + k.val, by omega⟩ j),
    foldl_add_eq_sum j.val
      (fun i => r.elt (Fin.castLE (Nat.le_of_lt j.isLt) i)
        * m.getEltUpper (Fin.castLE (Nat.le_of_lt j.isLt) i) j),
    sum_split_at M j (fun i => r.elt i * SymMat.toMat m i j)]
  congr 1
  · congr 1
    · simp [SymMat.toMat]
    · refine Finset.sum_congr rfl fun i _ => ?_
      have h1 : Fin.castLE (Nat.le_of_lt j.isLt) i < j := by
        rw [Fin.lt_def]; simp
      have h2 : j ≠ Fin.castLE (Nat.le_of_lt j.isLt) i := ne_of_gt h1
      have h3 : ¬ j < Fin.castLE (Nat.le_of_lt j.isLt) i := not_lt_of_gt h1
      simp [SymMat.toMat, h2, h3]
  · refine Finset.sum_congr rfl fun k _ => ?_
    have h1 : j < (⟨j.val + 1 + k.val, by omega⟩ : Fin M) := by
      rw [Fin.lt_def]; simp; omega
    have h2 : j ≠ (⟨j.val + 1 + k.val, by omega⟩ : Fin M) := ne_of_lt h1
    simp [SymMat.toMat, h1, h2]

/-- C22: `Row * SymMat` mirrors `SymMat * Vec`: element `j` of the general loop
is `r[j]*diag[j]` plus the sum over `i < j` of `r[i]*upper(i,j)` plus the sum
over `i > j` of `r[i]*lower(i,j)`, which is `r` times column `j` of the full
matrix expanded from `S`; and for `N = 1, 2, 3` the unrolled overloads return
the row the general loop returns at that `N`. -/
theorem rowMulSym_general_and_unrolled {E : Type} [Semiring E] [Star E] (M : Nat)
    (r : Row M E) (m : SymMat M E) (r1 : Row 1 E) (m1 : SymMat 1 E) (r2 : Row 2 E)
    (m2 : SymMat 2 E) (r3 : Row 3 E) (m3 : SymMat 3 E) :
    (∀ j : Fin M, (rowMulSym M r m).elt j
      = r.elt j * m.getDiag.elt j
        + ∑ i ∈ Finset.univ.filter (fun i : Fin M => i < j), r.elt i * m.getEltUpper i j
        + ∑ i ∈ Finset.univ.filter (fun i : Fin M => j < i), r.elt i * m.getEltLower i j) ∧
    rowMulSym M r m = rowMulMat M M r (SymMat.toMat m) ∧
    rowMulSym1 r1 m1 = rowMulSym 1 r1 m1 ∧
    rowMulSym2 r2 m2 = rowMulSym 2 r2 m2 ∧
    rowMulSym3 r3 m3 = rowMulSym 3 r3 m3 := by
  refine ⟨?_, ?_, ?_, ?_, ?_⟩
  · intro j
    rw [rowMulSym_elt_eq_sum, Finset.sum_filter, Finset.sum_filter]
    have hd : r.elt j * m.getDiag.elt j
        = ∑ i : Fin M, if i = j then r.elt j * m.getDiag.elt j else 0 := by
      simp
    rw [hd, ← Finset.sum_add_distrib, ← Finset.sum_add_distrib]
    refine Finset.sum_congr rfl fun i _ => ?_
    rcases lt_trichotomy i j with h | h | h
    · have h1 : i ≠ j := ne_of_lt h
      have h2 : j ≠ i := ne_of_gt h
      have h3 : ¬ j < i := not_lt_of_gt h
      simp [SymMat.toMat, h, h1, h2, h3]
    · subst h
      simp [SymMat.toMat]
    · have h1 : i ≠ j := ne_of_gt h
      have h2 : j ≠ i := ne_of_lt h
      have h3 : ¬ i < j := not_lt_of_gt h
      simp [SymMat.toMat, h, h1, h2, h3]
  · apply row_ext
    intro j
    rw [rowMulSym_elt_eq_sum]
    have hM : 1 ≤ M := by have := j.isLt; omega
    exact (rowMulVec_eq_sum_of_pos M hM r (Mat.colAt (SymMat.toMat m) j)).symm
  · apply row_ext
    intro j
    rw [rowMulSym_elt_eq_sum]
    fin_cases j
    simp [rowMulSym1, SymMat.toMat]
  · apply row_ext
    intro j
    rw [rowMulSym_elt_eq_sum]
    fin_cases j <;> simp [rowMulSym2, SymMat.toMat, Fin.sum_univ_two]
  · apply row_ext
    intro j
    rw [rowMulSym_elt_eq_sum]
    fin_cases j <;> simp [rowMulSym3, SymMat.toMat, Fin.sum_univ_three]

/-- At every size but 1, `lapackInverse` is the general template: the two
solver calls, each followed by its two status checks. -/
theorem lapackInverse_general {E : Type} [DivisionRing E] (L : Lapack E) (keepAssert : Bool)
    (M : Nat) (hM : M ≠ 1) (m : Mat M M E) :
    lapackInverse L keepAssert M m
      = if keepAssert && decide ((L.getrf M m).2 < 0) then
          Except.error InverseFailure.BadArgument
        else if (L.getrf M m).2 ≠ 0 then Except.error InverseFailure.SingularMatrix
        else if keepAssert
            && decide ((L.getri M (L.getrf M m).1.1 (L.getrf M m).1.2).2 < 0) then
          Except.error InverseFailure.BadArgument
        else if (L.getri M (L.getrf M m).1.1 (L.getrf M m).1.2).2 ≠ 0 then
          Except.error InverseFailure.SingularMatrix
        else Except.ok (L.getri M (L.getrf M m).1.1 (L.getrf M m).1.2).1 := by
  unfold lapackInverse
  split
  · exact absurd rfl hM
  · rfl

/-- At every size but 1, the calls `lapackInverse` makes: Factorize, and then
Invert-from-factors only when no check has failed after Factorize. -/
theorem lapackInverse_calls_general {E : Type} [DivisionRing E] (L : Lapack E)
    (keepAssert : Bool) (M : Nat) (hM : M ≠ 1) (m : Mat M M E) :
    (lapackInverse_calls L keepAssert M m).1
      = if keepAssert && decide ((L.getrf M m).2 < 0) then [SolverCall.getrf]
        else if (L.getrf M m).2 ≠ 0 then [SolverCall.getrf]
        else [SolverCall.getrf, SolverCall.getri] := by
  unfold lapackInverse_calls
  split
  · exact absurd rfl hM
  · simp only []
    split_ifs <;> rfl

/-- The outcome recorded with the calls is the outcome of `lapackInverse`. -/
theorem lapackInverse_calls_snd {E : Type} [DivisionRing E] (L : Lapack E)
    (keepAssert : Bool) (M : Nat) (m : Mat M M E) :
    (lapackInverse_calls L keepAssert M m).2 = lapackInverse L keepAssert M m := by
  unfold lapackInverse_calls lapackInverse
  split
  · rfl
  · simp only []
    split_ifs <;> rfl

/-- C23: with the solver given as two functions returning a status, the general
`lapackInverse` (size `M > 1`), in every build, returns a matrix if and only if
Factorize returns status 0 and Invert-from-factors then returns status 0, and
the matrix is then the buffer Invert-from-factors leaves; when Factorize
returns a non-zero status the only call made is Factorize; any non-zero status
makes the call fail with no matrix; and `inverse` at sizes above 3 is
`lapackInverse`. -/
theorem lapackInverse_returns_iff {E : Type} [DivisionRing E] (L : Lapack E)
    (keepAssert : Bool) (M : Nat) (hM : 1 < M) (m : Mat M M E) :
    ((∃ R, lapackInverse L keepAssert M m = Except.ok R) ↔
      ((L.getrf M m).2 = 0 ∧ (L.getri M (L.getrf M m).1.1 (L.getrf M m).1.2).2 = 0)) ∧
    ((L.getrf M m).2 = 0 → (L.getri M (L.getrf M m).1.1 (L.getrf M m).1.2).2 = 0 →
      lapackInverse L keepAssert M m
        = Except.ok (L.getri M (L.getrf M m).1.1 (L.getrf M m).1.2).1) ∧
    ((L.getrf M m).2 ≠ 0 →
      (lapackInverse_calls L keepAssert M m).1 = [SolverCall.getrf] ∧
      SolverCall.getri ∉ (lapackInverse_calls L keepAssert M m).1) ∧
    ((L.getrf M m).2 ≠ 0 ∨ (L.getri M (L.getrf M m).1.1 (L.getrf M m).1.2).2 ≠ 0 →
      ∃ e, lapackInverse L keepAssert M m = Except.error e) ∧
    (lapackInverse_calls L keepAssert M m).2 = lapackInverse L keepAssert M m ∧
    (3 < M → inverse L keepAssert M m = lapackInverse L keepAssert M m) := by
  have hM1 : M ≠ 1 := by omega
  refine ⟨?_, ?_, ?_, ?_, lapackInverse_calls_snd L keepAssert M m, ?_⟩
  · rw [lapackInverse_general L keepAssert M hM1 m]
    constructor
    · rintro ⟨R, h⟩
      split_ifs at h with h1 h2 h3 h4
      exact ⟨not_not.1 h2, not_not.1 h4⟩
    · rintro ⟨h1, h2⟩
      refine ⟨(L.getri M (L.getrf M m).1.1 (L.getrf M m).1.2).1, ?_⟩
      simp [h1, h2]
  · intro h1 h2
    rw [lapackInverse_general L keepAssert M hM1 m]
    simp [h1, h2]
  · intro h1
    rw [lapackInverse_calls_general L keepAssert M hM1 m]
    split_ifs <;> simp
  · intro h
    rw [lapackInverse_general L keepAssert M hM1 m]
    split_ifs with h1 h2 h3 h4
    · exact ⟨_, rfl⟩
    · exact ⟨_, rfl⟩
    · exact ⟨_, rfl⟩
    · exact ⟨_, rfl⟩
    · rcases h with h | h
      · exact absurd (not_not.1 h2) h
      · exact absurd (not_not.1 h4) h
  · intro h3
    unfold inverse
    split <;> first | omega | rfl

/-- C23 at size 2, the matrix `[[1,2],[3,4]]` and a solver reporting status 0
from both calls. -/
theorem lapackInverse_returns_iff_witness :
    1 < 2 ∧
    ((∃ R, lapackInverse (Lapack.reportStatus ℚ 0 0) true 2 !![(1 : ℚ), 2; 3, 4]
        = Except.ok R) ↔
      (((Lapack.reportStatus ℚ 0 0).getrf 2 !![(1 : ℚ), 2; 3, 4]).2 = 0 ∧
        ((Lapack.reportStatus ℚ 0 0).getri 2
          ((Lapack.reportStatus ℚ 0 0).getrf 2 !![(1 : ℚ), 2; 3, 4]).1.1
          ((Lapack.reportStatus ℚ 0 0).getrf 2 !![(1 : ℚ), 2; 3, 4]).1.2).2 = 0)) :=
  ⟨by decide,
    (lapackInverse_returns_iff (Lapack.reportStatus ℚ 0 0) true 2 (by decide)
      !![(1 : ℚ), 2; 3, 4]).1⟩

/-- C24, as stated, fails: in a build that compiles `SimTK_ASSERT1` out, a
Factorize status of `-4` passes no assertion and fails the always-on check
`info==0`, which reports it as a singular matrix; so does a status of `-4`
from Invert-from-factors. -/
theorem lapackInverse_negative_reported_singular :
    lapackInverse (Lapack.reportStatus ℚ (-4) 0) false 2 !![(1 : ℚ), 2; 3, 4]
      = Except.error InverseFailure.SingularMatrix ∧
    lapackInverse (Lapack.reportStatus ℚ 0 (-4)) false 2 !![(1 : ℚ), 2; 3, 4]
      = Except.error InverseFailure.SingularMatrix := by
  constructor
  · rw [lapackInverse_general _ _ _ (by decide)]
    simp [Lapack.reportStatus]
  · rw [lapackInverse_general _ _ _ (by decide)]
    simp [Lapack.reportStatus]

/-- C24, amended: in `lapackInverse` (size `M > 1`), in a build that keeps
`SimTK_ASSERT1`, a negative status from either solver call is reported as
`BadArgument` and a positive one as `SingularMatrix`; in a build that compiles
`SimTK_ASSERT1` out, every non-zero status from either call is reported as
`SingularMatrix`; and in every build `BadArgument` is reported only for a
negative status, so no positive status is reported as `BadArgument`. -/
theorem lapackInverse_failure_kinds {E : Type} [DivisionRing E] (L : Lapack E) (M : Nat)
    (hM : 1 < M) (m : Mat M M E) :
    ((L.getrf M m).2 < 0 →
      lapackInverse L true M m = Except.error InverseFailure.BadArgument) ∧
    (0 < (L.getrf M m).2 →
      lapackInverse L true M m = Except.error InverseFailure.SingularMatrix) ∧
    ((L.getrf M m).2 = 0 → (L.getri M (L.getrf M m).1.1 (L.getrf M m).1.2).2 < 0 →
      lapackInverse L true M m = Except.error InverseFailure.BadArgument) ∧
    ((L.getrf M m).2 = 0 → 0 < (L.getri M (L.getrf M m).1.1 (L.getrf M m).1.2).2 →
      lapackInverse L true M m = Except.error InverseFailure.SingularMatrix) ∧
    ((L.getrf M m).2 ≠ 0 →
      lapackInverse L false M m = Except.error InverseFailure.SingularMatrix) ∧
    ((L.getrf M m).2 = 0 → (L.getri M (L.getrf M m).1.1 (L.getrf M m).1.2).2 ≠ 0 →
      lapackInverse L false M m = Except.error InverseFailure.SingularMatrix) ∧
    (∀ keepAssert : Bool,
      lapackInverse L keepAssert M m = Except.error InverseFailure.BadArgument →
      keepAssert = true ∧ ((L.getrf M m).2 < 0 ∨
        ((L.getrf M m).2 = 0 ∧ (L.getri M (L.getrf M m).1.1 (L.getrf M m).1.2).2 < 0))) := by
  have hM1 : M ≠ 1 := by omega
  refine ⟨?_, ?_, ?_, ?_, ?_, ?_, ?_⟩
  · intro h
    rw [lapackInverse_general L true M hM1 m]
    simp [h]
  · intro h
    rw [lapackInverse_general L true M hM1 m]
    have h1 : ¬ (L.getrf M m).2 < 0 := not_lt.2 (le_of_lt h)
    have h2 : (L.getrf M m).2 ≠ 0 := ne_of_gt h
    simp [h1, h2]
  · intro h0 h
    rw [lapackInverse_general L true M hM1 m]
    simp [h0, h]
  · intro h0 h
    rw [lapackInverse_general L true M hM1 m]
    have h1 : ¬ (L.getri M (L.getrf M m).1.1 (L.getrf M m).1.2).2 < 0 := not_lt.2 (le_of_lt h)
    have h2 : (L.getri M (L.getrf M m).1.1 (L.getrf M m).1.2).2 ≠ 0 := ne_of_gt h
    simp [h0, h1, h2]
  · intro h
    rw [lapackInverse_general L false M hM1 m]
    simp [h]
  · intro h0 h
    rw [lapackInverse_general L false M hM1 m]
    simp [h0, h]
  · intro keepAssert h
    rw [lapackInverse_general L keepAssert M hM1 m] at h
    split_ifs at h with h1 h2 h3 h4
    · simp at h1
      exact ⟨h1.1, Or.inl h1.2⟩
    · simp at h
    · simp at h3
      exact ⟨h3.1, Or.inr ⟨not_not.1 h2, h3.2⟩⟩
    · simp at h

/-- C24, amended, at size 2, the matrix `[[1,2],[3,4]]` and a solver whose
Factorize reports status `-4`. -/
theorem lapackInverse_failure_kinds_witness :
    1 < 2 ∧
    (((Lapack.reportStatus ℚ (-4) 0).getrf 2 !![(1 : ℚ), 2; 3, 4]).2 < 0 →
      lapackInverse (Lapack.reportStatus ℚ (-4) 0) true 2 !![(1 : ℚ), 2; 3, 4]
        = Except.error InverseFailure.BadArgument) :=
  ⟨by decide,
    (lapackInverse_failure_kinds (Lapack.reportStatus ℚ (-4) 0) 2 (by decide)
      !![(1 : ℚ), 2; 3, 4]).1⟩

/-- C25: for every 3-vector `v` over a commutative ring (conjugation the
identity, so that the symmetric matrix is read symmetric), `M = crossMat(v)`
is skew-symmetric, its transpose being its negation and its diagonal zero, and
`crossMatSq(v)` read as a full matrix is symmetric and equals
`transpose(M) * M = -(M * M)`; over a linearly ordered ring the diagonal
entries of `crossMatSq` are non-negative. -/
theorem crossMat_skew_crossMatSq_square {R : Type} [CommRing R] [Star R] [TrivialStar R]
    (v : Vec 3 R) {S : Type} [LinearOrderedCommRing S] (u : Vec 3 S) :
    Matrix.transpose (crossMat v) = -(crossMat v) ∧
    (∀ i : Fin 3, crossMat v i i = 0) ∧
    SymMat.toMat (crossMatSq v) = Matrix.transpose (crossMat v) * crossMat v ∧
    SymMat.toMat (crossMatSq v) = -(crossMat v * crossMat v) ∧
    Matrix.transpose (SymMat.toMat (crossMatSq v)) = SymMat.toMat (crossMatSq v) ∧
    (∀ i : Fin 3, 0 ≤ (crossMatSq u).getDiag.elt i) := by
  have hskew : Matrix.transpose (crossMat v) = -(crossMat v) := by
    ext i j
    fin_cases i <;> fin_cases j <;> simp [crossMat, Mat.ofRows]
  have hsq : SymMat.toMat (crossMatSq v) = -(crossMat v * crossMat v) := by
    ext i j
    fin_cases i <;> fin_cases j <;>
      simp [SymMat.toMat, crossMatSq, SymMat.mk3, SymMat.getDiag, SymMat.getEltLower,
        SymMat.getEltUpper, square, crossMat, Mat.ofRows, Matrix.mul_apply,
        Fin.sum_univ_three] <;> ring
  refine ⟨hskew, ?_, ?_, hsq, ?_, ?_⟩
  · intro i
    fin_cases i <;> simp [crossMat, Mat.ofRows]
  · rw [hskew, Matrix.neg_mul]
    exact hsq
  · ext i j
    fin_cases i <;> fin_cases j <;>
      simp [SymMat.toMat, crossMatSq, SymMat.mk3, SymMat.getDiag, SymMat.getEltLower,
        SymMat.getEltUpper]
  · intro i
    fin_cases i <;> simp [crossMatSq, SymMat.mk3, SymMat.getDiag, square] <;>
      exact add_nonneg (mul_self_nonneg _) (mul_self_nonneg _)

/-- C25 at the integer vector `(1,2,3)`. -/
theorem crossMat_skew_crossMatSq_square_witness :
    SymMat.toMat (crossMatSq (Vec.mk ![(1 : ℤ), 2, 3]))
      = -(crossMat (Vec.mk ![(1 : ℤ), 2, 3]) * crossMat (Vec.mk ![(1 : ℤ), 2, 3])) :=
  (crossMat_skew_crossMatSq_square (Vec.mk ![(1 : ℤ), 2, 3])
    (Vec.mk ![(1 : ℤ), 2, 3])).2.2.2.1

/-- C26: for every `N >= 1` and all length-`N` vectors over a commutative star
ring (the real and the complex scalars among them), `dot(w, v)` is the
conjugate of `dot(v, w)` and `outer(w, v)` is the conjugate transpose of
`outer(v, w)`; where conjugation is the identity (real elements) `dot` is
symmetric and `outer(w, v)` is the transpose of `outer(v, w)`. -/
theorem dot_outer_conj_symm {E : Type} [CommSemiring E] [StarRing E] {R : Type}
    [CommSemiring R] [StarRing R] [TrivialStar R] (N : Nat) (hN : 1 ≤ N)
    (v w : Vec N E) (a b : Vec N R) :
    dot N w v = star (dot N v w) ∧
    outer N w v = Matrix.conjTranspose (outer N v w) ∧
    dot N b a = dot N a b ∧
    outer N b a = Matrix.transpose (outer N a b) := by
  refine ⟨?_, ?_, ?_, ?_⟩
  · rw [dot_eq_sum_of_pos N hN, dot_eq_sum_of_pos N hN, star_sum]
    refine Finset.sum_congr rfl fun i _ => ?_
    rw [star_mul, star_star, mul_comm]
  · ext i j
    simp [outer, Mat.ofRows, Row.scalarMul, Vec.transpose, Matrix.conjTranspose_apply,
      mul_comm]
  · rw [dot_eq_sum_of_pos N hN, dot_eq_sum_of_pos N hN]
    refine Finset.sum_congr rfl fun i _ => ?_
    rw [star_trivial, star_trivial, mul_comm]
  · ext i j
    simp [outer, Mat.ofRows, Row.scalarMul, Vec.transpose, mul_comm]

/-- C26 at the complex vectors `(i, 2)` and `(1, i)` and the real vectors
`(1, 2)` and `(3, 4)`. -/
theorem dot_outer_conj_symm_witness :
    1 ≤ 2 ∧
    dot 2 (Vec.mk ![(1 : ℂ), Complex.I]) (Vec.mk ![Complex.I, (2 : ℂ)])
      = star (dot 2 (Vec.mk ![Complex.I, (2 : ℂ)]) (Vec.mk ![(1 : ℂ), Complex.I])) ∧
    dot 2 (Vec.mk ![(3 : ℝ), 4]) (Vec.mk ![(1 : ℝ), 2])
      = dot 2 (Vec.mk ![(1 : ℝ), 2]) (Vec.mk ![(3 : ℝ), 4]) :=
  ⟨by decide,
    (dot_outer_conj_symm 2 (by decide) (Vec.mk ![Complex.I, (2 : ℂ)])
      (Vec.mk ![(1 : ℂ), Complex.I]) (Vec.mk ![(1 : ℝ), 2]) (Vec.mk ![(3 : ℝ), 4])).1,
    (dot_outer_conj_symm 2 (by decide) (Vec.mk ![Complex.I, (2 : ℂ)])
      (Vec.mk ![(1 : ℂ), Complex.I]) (Vec.mk ![(1 : ℝ), 2]) (Vec.mk ![(3 : ℝ), 4])).2.2.1⟩

/-- C27: for all 3-vectors `a`, `b` over a commutative ring, `cross(a, b)` is
orthogonal to both operands under the unconjugated row-times-vector product:
`(a as a row) * cross(a, b) = 0` and `(b as a row) * cross(a, b) = 0`. -/
theorem cross_orthogonal {R : Type} [CommRing R] (a b : Vec 3 R) :
    rowMulVec 3 a.positionalTranspose (cross a b) = 0 ∧
    rowMulVec 3 b.positionalTranspose (cross a b) = 0 := by
  constructor
  · simp [rowMulVec, cross, Vec.positionalTranspose, Row.front, Vec.front, Fin.last]
    ring
  · simp [rowMulVec, cross, Vec.positionalTranspose, Row.front, Vec.front, Fin.last]
    ring

end SimTK
